import Mathlib

/-!
Verification development for the migratowl dependency-analysis pipeline.

The Python sources are shallowly embedded:
* Python `str` values are modelled as `String` / `List Char`; the regex character
  classes `\s`, `\w`, `\d` are modelled over the ASCII range.
* `async` functions are modelled as pure functions receiving the outcome of each
  awaited external call (HTTP request, registry lookup, LLM call) as an explicit
  `Except` argument: `.error` models a raised exception, `.ok` a returned value.
* Python floats (the RAG confidence score) are modelled as exact rationals `ℚ`;
  the embedded code only compares them, and the comparisons of the decimal
  literals involved agree with their float counterparts.
* Python dynamic errors (`ValueError`, `TypeError`, `AttributeError`) escaping a
  function are modelled by returning `Except PyErr`.
-/

/-- Dynamic Python exceptions that the embedded fragments can raise. -/
inductive PyErr where
  | valueError
  | typeError
  | attributeError
deriving DecidableEq, Repr

/-- Python `str.isspace`-style class for the regex `\s` and `str.strip`,
restricted to the ASCII range. -/
def isPySpace (c : Char) : Bool :=
  c = ' ' || c = '\t' || c = '\n' || c = '\r' || c = '\x0b' || c = '\x0c'

/-- Regex class `\d` over ASCII. -/
def isPyDigit (c : Char) : Bool := '0' ≤ c && c ≤ '9'

/-- Regex class `[A-Za-z]` over ASCII. -/
def isPyAlpha (c : Char) : Bool := ('a' ≤ c && c ≤ 'z') || ('A' ≤ c && c ≤ 'Z')

/-- Regex class `\w` over ASCII. -/
def isPyWord (c : Char) : Bool := isPyAlpha c || isPyDigit c || c = '_'

/-- Python `str.strip()` on a character list. -/
def pyStrip (cs : List Char) : List Char :=
  ((cs.dropWhile isPySpace).reverse.dropWhile isPySpace).reverse

/-- Python `str.strip()` on a `String`. -/
def pyStripS (s : String) : String := ⟨pyStrip s.data⟩

/-- A changelog chunk, the dict `{"version": ..., "content": ...}` produced by
`chunk_changelog_by_version` in `migratowl/core/changelog.py`. -/
structure Chunk where
  version : String
  content : String
deriving DecidableEq, Repr

/-! ## rag.py: `embed_changelog` sub-chunk splitting -/

/-- The per-embedding-call character budget `EMBED_CHUNK_CHARS` of
`migratowl/core/rag.py`. -/
def EMBED_CHUNK_CHARS : Nat := 4000

/-- Python `range(0, stop, step)` for a positive `step`: the multiples of `step`
below `stop`. -/
def pyRangeStep (stop step : Nat) : List Nat :=
  (List.range ((stop + step - 1) / step)).map (fun k => k * step)

/-- The list comprehension
`[content[i : i + EMBED_CHUNK_CHARS] for i in range(0, max(len(content), 1), EMBED_CHUNK_CHARS)]`
from `embed_changelog` in `migratowl/core/rag.py`. -/
def sub_contents (content : List Char) : List (List Char) :=
  (pyRangeStep (max content.length 1) EMBED_CHUNK_CHARS).map
    (fun i => (content.drop i).take EMBED_CHUNK_CHARS)

/-- One document upserted into the vector store by `embed_changelog`:
its id `f"{dep_name}:{version}:{idx}"`, its text, and its
`{"dep_name": ..., "version": ...}` metadata. -/
structure StoredDoc where
  docId : String
  document : String
  metaDep : String
  metaVersion : String
deriving DecidableEq, Repr

/-- The inner loop `for idx, sub_content in enumerate(sub_contents): upsert(...)`
of `embed_changelog`, collecting the upserted documents in order. -/
def docs_from (dep version : String) : Nat → List (List Char) → List StoredDoc
  | _, [] => []
  | idx, sc :: rest =>
      ⟨dep ++ ":" ++ version ++ ":" ++ toString idx, ⟨sc⟩, dep, version⟩ ::
        docs_from dep version (idx + 1) rest

/-- The documents upserted for one chunk by `embed_changelog`. -/
def docs_for (dep : String) (ch : Chunk) : List StoredDoc :=
  docs_from dep ch.version 0 (sub_contents ch.content.data)

/-- The embedding/upsert trace of `embed_changelog(dep_name, version_chunks)` in
`migratowl/core/rag.py`: all documents upserted, in order. -/
def embed_changelog (dep : String) (chunks : List Chunk) : List StoredDoc :=
  (chunks.map (docs_for dep)).flatten

/-! ## report.py: `build_report` -/

/-- Severity levels of `migratowl/models/schemas.py`. -/
inductive Severity where
  | critical
  | warning
  | info
deriving DecidableEq, Repr

/-- The fields of an `ImpactAssessment` that `build_report` reads (the remaining
pydantic fields are opaque payload for these claims). -/
structure ImpactAssessment where
  dep_name : String
  summary : String
  overall_severity : Severity
  warnings : List String
deriving DecidableEq, Repr

/-- The `AnalysisReport` model serialized as the final report JSON. -/
structure AnalysisReport where
  project_path : String
  timestamp : String
  total_dependencies : Nat
  outdated_count : Nat
  critical_count : Nat
  assessments : List ImpactAssessment
  patches : List String
  errors : List String
deriving DecidableEq, Repr

/-- The function `build_report` of `migratowl/core/report.py`; `timestamp` is the
externally produced `datetime.now(tz=UTC).isoformat()` string. -/
def build_report (project_path timestamp : String) (assessments : List ImpactAssessment)
    (patches : List String) (errors : List String) : AnalysisReport :=
  { project_path := project_path
    timestamp := timestamp
    total_dependencies := assessments.length
    outdated_count := assessments.length
    critical_count := assessments.countP (fun a => a.overall_severity = Severity.critical)
    assessments := assessments
    patches := patches
    errors := errors }

/-! ## changelog.py: `fetch_changelog` strategy cascade -/

/-- Python truthiness of an optional string (`None` and `""` are falsy). -/
def pyTruthy (o : Option String) : Bool :=
  match o with
  | none => false
  | some s => !s.isEmpty

/-- The `for strategy in ordered: try: return await strategy(...) except: pass`
loop of `fetch_changelog`: the first strategy outcome that is not an exception. -/
def firstOkStrategy : List (Except Unit String) → Option String
  | [] => none
  | .ok t :: _ => some t
  | .error _ :: rest => firstOkStrategy rest

/-- Outcomes of the awaited strategy coroutines of `fetch_changelog`
(`_fetch_from_url`, `_fetch_from_github`, `_fetch_from_github_releases`);
`.error` models the strategy raising any exception. -/
structure FetchOutcomes where
  url_fetch : Except Unit String
  github_files : Except Unit String
  github_releases : Except Unit String

/-- The function `fetch_changelog` of `migratowl/core/changelog.py`.
`github_token` models `settings.github_token` (empty string means unset). -/
def fetch_changelog (changelog_url repository_url : Option String) (dep_name : String)
    (github_token : String) (env : FetchOutcomes) : String × List String :=
  if !pyTruthy changelog_url && !pyTruthy repository_url then
    ("", ["No changelog URL or repository URL provided for " ++ dep_name])
  else
    match (if pyTruthy changelog_url then some env.url_fetch else none) with
    | some (.ok t) => (t, [])
    | _ =>
      if pyTruthy repository_url then
        match firstOkStrategy
            (if github_token ≠ "" then [env.github_releases, env.github_files]
             else [env.github_files, env.github_releases]) with
        | some t => (t, [])
        | none => ("", ["Could not fetch changelog for " ++ dep_name])
      else ("", ["Could not fetch changelog for " ++ dep_name])

/-! ## analyzer.py: the `rag_analyze ⇄ refine_query` retry loop -/

/-- The constant `MAX_RAG_RETRIES` of `migratowl/core/analyzer.py`. -/
def MAX_RAG_RETRIES : Nat := 3

/-- The default of `settings.confidence_threshold` (0.6), the value of
`CONFIDENCE_THRESHOLD` in `migratowl/core/analyzer.py`. -/
def CONFIDENCE_THRESHOLD : ℚ := 3 / 5

/-- Worker-graph nodes that the retry loop can route to. -/
inductive DepNode where
  | rag_analyze
  | refine_query
  | parse_code
deriving DecidableEq, Repr

/-- Outcome of running the `rag_analyze`/`refine_query` loop to completion:
how many times `rag_analyze` invoked `rag.query`, the final state fields, and
the node the final `Command` routes to. -/
structure RagLoopResult (α : Type) where
  analyze_calls : Nat
  rag_results : List α
  rag_confidence : ℚ
  retry_count : Nat
  next_node : DepNode
deriving Repr

/-- The `rag_analyze_node` / `refine_query_node` self-loop of
`migratowl/core/analyzer.py`, entered at `retry_count = retry`.
`oracle n` is the outcome of `await rag.query(...)` when `retry_count = n`
(`.error` models `rag.query` raising, e.g. an LLM validation failure);
its payload is the `(confidence, breaking_changes)` pair of the result. -/
def rag_retry_loop {α : Type} (oracle : Nat → Except Unit (ℚ × List α)) (threshold : ℚ)
    (max_retries : Nat) (retry : Nat) : RagLoopResult α :=
  match oracle retry with
  | .error _ => ⟨1, [], 0, retry, .parse_code⟩
  | .ok (conf, res) =>
    if h : conf < threshold ∧ retry < max_retries then
      let r := rag_retry_loop oracle threshold max_retries (retry + 1)
      ⟨r.analyze_calls + 1, r.rag_results, r.rag_confidence, r.retry_count, r.next_node⟩
    else ⟨1, res, conf, retry, .parse_code⟩
termination_by max_retries + 1 - retry
decreasing_by omega

/-! ## packaging.version: PEP 440 versions

`changelog.py` and `registry.py` compare version strings with
`packaging.version.Version`. The PEP 440 grammar and the comparison key of
`packaging/version.py` are embedded below. The regex alternations are resolved
longest-match-first, which coincides with the backtracking semantics here
because no shorter alternative can ever lead to a successful overall match when
a longer one is available (the leftover letters are consumable by no later
group). Parsers that consume a statically unbounded number of characters per
step take an explicit fuel argument (initialised to the input length, which is
always sufficient) so that every definition reduces by structural recursion. -/

/-- Separator class `[-_.]` of the PEP 440 regex. -/
def isSepChar (c : Char) : Bool := c = '-' || c = '_' || c = '.'

/-- Numeric value of a digit run. -/
def natOfDigits (ds : List Char) : Nat :=
  ds.foldl (fun n c => n * 10 + (c.toNat - '0'.toNat)) 0

/-- Drop one optional separator (`[-_.]?`). -/
def dropOptSep (cs : List Char) : List Char :=
  match cs with
  | c :: rest => if isSepChar c then rest else cs
  | [] => []

/-- Pre-release letters after `packaging`'s normalisation
(`alpha → a`, `beta → b`, `c`/`pre`/`preview` → `rc`); the normalised letters
order as the strings "a" < "b" < "rc". -/
inductive PreTag where
  | a
  | b
  | rc
deriving DecidableEq, Repr

/-- One segment of a PEP 440 local version: numeric segments compare as
integers and above alphanumeric segments. -/
inductive LocalSeg where
  | num (n : Nat)
  | str (s : List Char)
deriving DecidableEq, Repr

/-- A parsed PEP 440 version: the `_Version` named tuple of
`packaging/version.py`. -/
structure Pep440 where
  epoch : Nat
  release : List Nat
  pre : Option (PreTag × Nat)
  post : Option Nat
  dev : Option Nat
  locver : Option (List LocalSeg)
deriving DecidableEq, Repr

/-- Match the pre-release letter alternation
`(a|b|c|rc|alpha|beta|pre|preview)`, longest alternative first. -/
def matchPreTag (cs : List Char) : Option (PreTag × List Char) :=
  if ("preview".data).isPrefixOf cs then some (.rc, cs.drop 7)
  else if ("alpha".data).isPrefixOf cs then some (.a, cs.drop 5)
  else if ("beta".data).isPrefixOf cs then some (.b, cs.drop 4)
  else if ("pre".data).isPrefixOf cs then some (.rc, cs.drop 3)
  else if ("rc".data).isPrefixOf cs then some (.rc, cs.drop 2)
  else if ("a".data).isPrefixOf cs then some (.a, cs.drop 1)
  else if ("b".data).isPrefixOf cs then some (.b, cs.drop 1)
  else if ("c".data).isPrefixOf cs then some (.rc, cs.drop 1)
  else none

/-- The optional group `[-_.]? letter [-_.]? [0-9]*` for pre-releases; when the
letter is absent the whole group is unmatched and the input is left untouched. -/
def parsePre (cs : List Char) : Option (PreTag × Nat) × List Char :=
  match matchPreTag (dropOptSep cs) with
  | some (t, rest) =>
      let rest1 := dropOptSep rest
      let ds := rest1.takeWhile isPyDigit
      (some (t, natOfDigits ds), rest1.dropWhile isPyDigit)
  | none => (none, cs)

/-- The second post-release alternative `[-_.]? (post|rev|r) [-_.]? [0-9]*`. -/
def parsePostAlt (cs : List Char) : Option Nat × List Char :=
  let cs1 := dropOptSep cs
  let matched : Option (List Char) :=
    if ("post".data).isPrefixOf cs1 then some (cs1.drop 4)
    else if ("rev".data).isPrefixOf cs1 then some (cs1.drop 3)
    else if ("r".data).isPrefixOf cs1 then some (cs1.drop 1)
    else none
  match matched with
  | some rest =>
      let rest1 := dropOptSep rest
      let ds := rest1.takeWhile isPyDigit
      (some (natOfDigits ds), rest1.dropWhile isPyDigit)
  | none => (none, cs)

/-- The post-release group `(-[0-9]+) | ([-_.]? (post|rev|r) [-_.]? [0-9]*)`,
first alternative first. -/
def parsePost (cs : List Char) : Option Nat × List Char :=
  match cs with
  | '-' :: rest =>
      let ds := rest.takeWhile isPyDigit
      if ds.isEmpty then parsePostAlt cs
      else (some (natOfDigits ds), rest.dropWhile isPyDigit)
  | _ => parsePostAlt cs

/-- The dev-release group `[-_.]? dev [-_.]? [0-9]*`. -/
def parseDev (cs : List Char) : Option Nat × List Char :=
  let cs1 := dropOptSep cs
  if ("dev".data).isPrefixOf cs1 then
    let rest1 := dropOptSep (cs1.drop 3)
    let ds := rest1.takeWhile isPyDigit
    (some (natOfDigits ds), rest1.dropWhile isPyDigit)
  else (none, cs)

/-- The release tail `(\.[0-9]+)*`: consume `.N` groups greedily. -/
def parseMoreRelease (fuel : Nat) (cs : List Char) : List Nat × List Char :=
  match fuel with
  | 0 => ([], cs)
  | fuel + 1 =>
      match cs with
      | '.' :: rest =>
          let ds := rest.takeWhile isPyDigit
          if ds.isEmpty then ([], cs)
          else
            let (segs, r2) := parseMoreRelease fuel (rest.dropWhile isPyDigit)
            (natOfDigits ds :: segs, r2)
      | _ => ([], cs)

/-- Alphanumeric class `[a-z0-9]` of local-version segments (input is already
lower-cased). -/
def isLocAlnum (c : Char) : Bool := isPyDigit c || ('a' ≤ c && c ≤ 'z')

/-- Classify one local segment: all-digit segments are numeric
(`packaging._parse_local_version`). -/
def mkLocalSeg (run : List Char) : LocalSeg :=
  if run.all isPyDigit then .num (natOfDigits run) else .str run

/-- The local-version tail `[a-z0-9]+ ([-_.][a-z0-9]+)*`, greedy. -/
def parseLocalList (fuel : Nat) (cs : List Char) : List LocalSeg × List Char :=
  match fuel with
  | 0 => ([], cs)
  | fuel + 1 =>
      let run := cs.takeWhile isLocAlnum
      if run.isEmpty then ([], cs)
      else
        let rest := cs.dropWhile isLocAlnum
        match rest with
        | c :: rest2 =>
            if isSepChar c && !(rest2.takeWhile isLocAlnum).isEmpty then
              let (segs, rest3) := parseLocalList fuel rest2
              (mkLocalSeg run :: segs, rest3)
            else (mkLocalSeg run :: [], rest)
        | [] => ([mkLocalSeg run], [])

/-- Parse a whole PEP 440 version from a lower-cased, stripped character list:
the anchored `VERSION_PATTERN` match of `packaging/version.py`. -/
def pep440ParseCore (cs0 : List Char) : Option Pep440 :=
  let cs :=
    match cs0 with
    | 'v' :: rest => rest
    | _ => cs0
  let eds := cs.takeWhile isPyDigit
  let er := cs.dropWhile isPyDigit
  let ep : Nat × List Char :=
    match er with
    | '!' :: rest => if eds.isEmpty then (0, cs) else (natOfDigits eds, rest)
    | _ => (0, cs)
  let cs1 := ep.2
  let r1 := cs1.takeWhile isPyDigit
  if r1.isEmpty then none
  else
    let rr := cs1.dropWhile isPyDigit
    let more := parseMoreRelease rr.length rr
    let release := natOfDigits r1 :: more.1
    let p1 := parsePre more.2
    let p2 := parsePost p1.2
    let p3 := parseDev p2.2
    let p4 : Option (List LocalSeg) × List Char :=
      match p3.2 with
      | '+' :: rest =>
          let ll := parseLocalList rest.length rest
          if ll.1.isEmpty then (none, p3.2) else (some ll.1, ll.2)
      | _ => (none, p3.2)
    if p4.2.isEmpty then some ⟨ep.1, release, p1.1, p2.1, p3.1, p4.1⟩ else none

/-- The constructor `packaging.version.Version(s)`: strip surrounding
whitespace, lower-case, and match the anchored pattern; `none` models
`InvalidVersion`. -/
def pep440Parse (s : String) : Option Pep440 :=
  pep440ParseCore ((pyStrip s.data).map Char.toLower)

/-! ### The PEP 440 comparison key (`packaging.version._cmpkey`) -/

/-- Three-way comparison on `Nat`. -/
def cmpNat (a b : Nat) : Ordering :=
  if a < b then .lt else if b < a then .gt else .eq

/-- Three-way comparison on `Int`. -/
def cmpInt (a b : Int) : Ordering :=
  if a < b then .lt else if b < a then .gt else .eq

/-- Python tuple/sequence comparison: lexicographic, a strict prefix is
smaller. -/
def cmpList {α : Type} (cmp : α → α → Ordering) : List α → List α → Ordering
  | [], [] => .eq
  | [], _ :: _ => .lt
  | _ :: _, [] => .gt
  | a :: as, b :: bs => (cmp a b).then (cmpList cmp as bs)

/-- Remove trailing zeros of the release tuple, as `_cmpkey` does. -/
def stripZeros (r : List Nat) : List Nat :=
  (r.reverse.dropWhile (fun n => n = 0)).reverse

/-- Order index of a normalised pre-release letter ("a" < "b" < "rc"). -/
def preTagVal : PreTag → Nat
  | .a => 0
  | .b => 1
  | .rc => 2

/-- The `_pre` component of `_cmpkey`: `NegativeInfinity` when the version is a
dev release with no pre/post, `Infinity` when there is no pre-release, else the
`(letter, number)` pair. -/
inductive PreKey where
  | negInf
  | val (t : PreTag) (n : Nat)
  | posInf
deriving DecidableEq, Repr

/-- Compute the `_pre` key of a parsed version. -/
def preKeyOf (x : Pep440) : PreKey :=
  match x.pre with
  | some (t, n) => .val t n
  | none => if x.post = none ∧ x.dev ≠ none then .negInf else .posInf

/-- Comparison of `_pre` keys. -/
def cmpPreKey : PreKey → PreKey → Ordering
  | .negInf, .negInf => .eq
  | .negInf, _ => .lt
  | _, .negInf => .gt
  | .posInf, .posInf => .eq
  | _, .posInf => .lt
  | .posInf, _ => .gt
  | .val t n, .val u m => (cmpNat (preTagVal t) (preTagVal u)).then (cmpNat n m)

/-- Comparison of `_post` keys (`NegativeInfinity` when absent). -/
def cmpPost : Option Nat → Option Nat → Ordering
  | none, none => .eq
  | none, some _ => .lt
  | some _, none => .gt
  | some n, some m => cmpNat n m

/-- Comparison of `_dev` keys (`Infinity` when absent). -/
def cmpDev : Option Nat → Option Nat → Ordering
  | none, none => .eq
  | none, some _ => .gt
  | some _, none => .lt
  | some n, some m => cmpNat n m

/-- Three-way comparison on `Char` by code point. -/
def cmpChar (a b : Char) : Ordering := cmpNat a.toNat b.toNat

/-- Comparison of local-version segments: numeric segments beat alphanumeric
segments, otherwise compare componentwise. -/
def cmpLocalSeg : LocalSeg → LocalSeg → Ordering
  | .num n, .num m => cmpNat n m
  | .num _, .str _ => .gt
  | .str _, .num _ => .lt
  | .str s, .str t => cmpList cmpChar s t

/-- Comparison of `_local` keys (`NegativeInfinity` when absent). -/
def cmpLocal : Option (List LocalSeg) → Option (List LocalSeg) → Ordering
  | none, none => .eq
  | none, some _ => .lt
  | some _, none => .gt
  | some a, some b => cmpList cmpLocalSeg a b

/-- The full `_cmpkey` comparison of two parsed PEP 440 versions. -/
def pep440Cmp (a b : Pep440) : Ordering :=
  (cmpNat a.epoch b.epoch).then
    ((cmpList cmpNat (stripZeros a.release) (stripZeros b.release)).then
      ((cmpPreKey (preKeyOf a) (preKeyOf b)).then
        ((cmpPost a.post b.post).then
          ((cmpDev a.dev b.dev).then (cmpLocal a.locver b.locver)))))

/-- Strict `Version.__lt__`. -/
def pep440Lt (a b : Pep440) : Bool :=
  match pep440Cmp a b with
  | .lt => true
  | _ => false

/-- Non-strict `Version.__le__`. -/
def pep440Le (a b : Pep440) : Bool :=
  match pep440Cmp a b with
  | .gt => false
  | _ => true

/-! ## changelog.py: `filter_chunks_by_version_range` -/

/-- Python `str.split(sep)` for a one-character separator: the segments between
occurrences of `sep`, keeping empty segments. -/
def splitOnChar (sep : Char) : List Char → List (List Char)
  | [] => [[]]
  | c :: rest =>
      let r := splitOnChar sep rest
      if c = sep then [] :: r
      else
        match r with
        | [] => [[c]]
        | l :: ls => (c :: l) :: ls

/-- Digit groups of a Python `int` literal: digits with single underscores
strictly between digits. -/
def digitsUndAux (acc : Nat) : List Char → Option Nat
  | [] => some acc
  | '_' :: c :: rest =>
      if isPyDigit c then digitsUndAux (acc * 10 + (c.toNat - '0'.toNat)) rest else none
  | '_' :: [] => none
  | c :: rest =>
      if isPyDigit c then digitsUndAux (acc * 10 + (c.toNat - '0'.toNat)) rest else none

/-- Python `int(s)` on a string (ASCII model): strip whitespace, optional sign,
digits with single underscores between digits; `none` models `ValueError`. -/
def pyIntCore (cs : List Char) : Option Int :=
  let cs1 := pyStrip cs
  let sp : Int × List Char :=
    match cs1 with
    | '+' :: r => (1, r)
    | '-' :: r => (-1, r)
    | _ => (1, cs1)
  match sp.2 with
  | c :: rest =>
      if isPyDigit c then
        match digitsUndAux (c.toNat - '0'.toNat) rest with
        | some n => some (sp.1 * Int.ofNat n)
        | none => none
      else none
  | [] => none

/-- The tuple fallback `tuple(int(x) for x in v.split("."))` of
`filter_chunks_by_version_range`; `none` models the `ValueError` raised by
`int`. (In this typed embedding the version is always a `str`, so the
`AttributeError` branch of the chunk fallback cannot fire.) -/
def tupleOfVersion (s : String) : Option (List Int) :=
  (splitOnChar '.' s.data).mapM pyIntCore

/-- A comparison key as the Python code holds it: either a parsed
`packaging.version.Version` or an int tuple from the fallback. -/
inductive VKey where
  | ver (v : Pep440)
  | tup (t : List Int)
deriving DecidableEq, Repr

/-- Strict Python comparison of two int tuples. -/
def intListLt (a b : List Int) : Bool :=
  match cmpList cmpInt a b with
  | .lt => true
  | _ => false

/-- Non-strict Python comparison of two int tuples. -/
def intListLe (a b : List Int) : Bool :=
  match cmpList cmpInt a b with
  | .gt => false
  | _ => true

/-- Python `a < b` on two keys: comparing a `Version` with a tuple raises
`TypeError`. -/
def vkeyLt (a b : VKey) : Except PyErr Bool :=
  match a, b with
  | .ver x, .ver y => .ok (pep440Lt x y)
  | .tup x, .tup y => .ok (intListLt x y)
  | _, _ => .error .typeError

/-- Python `a <= b` on two keys. -/
def vkeyLe (a b : VKey) : Except PyErr Bool :=
  match a, b with
  | .ver x, .ver y => .ok (pep440Le x y)
  | .tup x, .tup y => .ok (intListLe x y)
  | _, _ => .error .typeError

/-- Parse one chunk's version as the filter loop does: `Version` first, then
the int-tuple fallback; `none` means the chunk is skipped (`continue`). -/
def chunkKey (version : String) : Option VKey :=
  match pep440Parse version with
  | some v => some (.ver v)
  | none =>
      match tupleOfVersion version with
      | some t => some (.tup t)
      | none => none

/-- The `for chunk in chunks` loop of `filter_chunks_by_version_range` with the
chained comparison `current < v <= latest` (left comparison evaluated first;
the right one only when the left is true). -/
def filterLoop (cur lat : VKey) : List Chunk → Except PyErr (List Chunk)
  | [] => .ok []
  | ch :: rest =>
      match chunkKey ch.version with
      | none => filterLoop cur lat rest
      | some v =>
          match vkeyLt cur v with
          | .error e => .error e
          | .ok false => filterLoop cur lat rest
          | .ok true =>
              match vkeyLe v lat with
              | .error e => .error e
              | .ok false => filterLoop cur lat rest
              | .ok true =>
                  match filterLoop cur lat rest with
                  | .error e => .error e
                  | .ok r => .ok (ch :: r)

/-- The function `filter_chunks_by_version_range` of
`migratowl/core/changelog.py`. Only `InvalidVersion` is caught around the
parses of `current_version`/`latest_version`; a `ValueError` from the int-tuple
fallback propagates. -/
def filter_chunks_by_version_range (chunks : List Chunk)
    (current_version latest_version : String) : Except PyErr (List Chunk) :=
  if chunks.isEmpty then .ok []
  else
    match pep440Parse current_version, pep440Parse latest_version with
    | some c, some l => filterLoop (.ver c) (.ver l) chunks
    | _, _ =>
        match tupleOfVersion current_version with
        | none => .error .valueError
        | some ct =>
            match tupleOfVersion latest_version with
            | none => .error .valueError
            | some lt2 => filterLoop (.tup ct) (.tup lt2) chunks

/-- Membership predicate of the half-open range `(current, latest]` for one
chunk when all three versions are compared as parsed PEP 440 versions; a chunk
whose version parses by neither method is not in range (it is dropped). -/
def verInRange (c l : Pep440) (ch : Chunk) : Bool :=
  match pep440Parse ch.version with
  | some v => pep440Lt c v && pep440Le v l
  | none => false

/-- Membership predicate of the range in int-tuple fallback mode. -/
def tupInRange (a b : List Int) (ch : Chunk) : Bool :=
  match tupleOfVersion ch.version with
  | some t => intListLt a t && intListLe t b
  | none => false

/-! ## registry.py: `_is_newer` and `find_outdated` -/

/-- Supported ecosystems. -/
inductive Ecosystem where
  | python
  | nodejs
deriving DecidableEq, Repr

/-- A scanned dependency (`migratowl/models/schemas.py`). -/
structure Dependency where
  name : String
  current_version : String
  ecosystem : Ecosystem
  manifest_path : String
deriving DecidableEq, Repr

/-- Registry metadata for one package. -/
structure RegistryInfo where
  name : String
  latest_version : String
  homepage_url : Option String
  repository_url : Option String
  changelog_url : Option String
deriving DecidableEq, Repr

/-- An outdated dependency record. -/
structure OutdatedDependency where
  name : String
  current_version : String
  latest_version : String
  ecosystem : Ecosystem
  manifest_path : String
  homepage_url : Option String
  repository_url : Option String
  changelog_url : Option String
deriving DecidableEq, Repr

/-- The function `_is_newer` of `migratowl/core/registry.py`: strict PEP 440
comparison, falling back to string inequality when either side raises
`InvalidVersion`. -/
def _is_newer (latest current : String) : Bool :=
  match pep440Parse latest, pep440Parse current with
  | some l, some c => pep440Lt c l
  | _, _ => latest != current

/-- The `OutdatedDependency(...)` constructor call inside `find_outdated`. -/
def mk_outdated (d : Dependency) (info : RegistryInfo) : OutdatedDependency :=
  ⟨d.name, d.current_version, info.latest_version, d.ecosystem, d.manifest_path,
    info.homepage_url, info.repository_url, info.changelog_url⟩

/-- The function `find_outdated` of `migratowl/core/registry.py`. `lookup d`
is the outcome of `await query_registry(d.name, d.ecosystem)`; `.error e`
models a raised exception with message `e`. Results keep the order of `deps`
(`asyncio.gather` preserves argument order); the `errors` list is modelled in
`deps` order, a deterministic representative of the scheduler-dependent append
order, which no claim observes. -/
def find_outdated (deps : List Dependency)
    (lookup : Dependency → Except String RegistryInfo) :
    List OutdatedDependency × List String :=
  if deps.isEmpty then ([], [])
  else
    (deps.filterMap (fun d =>
        match lookup d with
        | .error _ => none
        | .ok info =>
            if _is_newer info.latest_version d.current_version then some (mk_outdated d info)
            else none),
      deps.filterMap (fun d =>
        match lookup d with
        | .error e => some ("Registry query failed for " ++ d.name ++ ": " ++ e)
        | .ok _ => none))

/-! ## analyzer.py: `scan_dependencies_node`

`scan_dependencies_node` executes `outdated = await registry.find_outdated(deps)`
followed by `[... for od in outdated]` — it never unpacks the
`(outdated, errors)` tuple that `find_outdated` returns, so the comprehension
iterates over the tuple itself, binding `od` to the two `list` objects in turn;
`od.name` on a `list` raises `AttributeError`. The dynamic values reaching the
comprehension are modelled by `PyIterVal`. -/

/-- The values produced by iterating the `(outdated, errors)` tuple. -/
inductive PyIterVal where
  | odList (l : List OutdatedDependency)
  | strList (l : List String)
deriving Repr

/-- Iterating a Python 2-tuple yields its two items. -/
def tupleItems (p : List OutdatedDependency × List String) : List PyIterVal :=
  [.odList p.1, .strList p.2]

/-- Attribute access `od.name`: `list` objects have no attribute `name`. -/
def pyAttrName : PyIterVal → Except PyErr String
  | .odList _ => .error .attributeError
  | .strList _ => .error .attributeError

/-- The dict entry built for one iterated value by the comprehension in
`scan_dependencies_node` (evaluation of `od.name` comes first and already
raises). -/
structure DepDict where
  name : String
  current_version : String
  latest_version : String
  project_path : String
  changelog_url : String
  repository_url : String
deriving DecidableEq, Repr

/-- One comprehension element: `{"name": od.name, ...}`. -/
def dep_dict_of (project_path : String) (od : PyIterVal) : Except PyErr DepDict := do
  let n ← pyAttrName od
  pure ⟨n, "", "", project_path, "", ""⟩

/-- The node `scan_dependencies_node` of `migratowl/core/analyzer.py`, given
the scanned dependencies and the registry-lookup outcomes: it builds
`dep_dicts` by iterating the un-unpacked tuple returned by `find_outdated`. -/
def scan_dependencies_node (project_path : String) (deps : List Dependency)
    (lookup : Dependency → Except String RegistryInfo) : Except PyErr (List DepDict) :=
  (tupleItems (find_outdated deps lookup)).mapM (dep_dict_of project_path)

/-! ## changelog.py: the version-header recognizer and the chunker -/

/-- Line-boundary characters of Python `str.splitlines` (the `\r\n` pair is a
single boundary, handled in `pySplitLines`). -/
def isLineBreakChar (c : Char) : Bool :=
  c = '\n' || c = '\r' || c = '\x0b' || c = '\x0c' ||
  c = '\x1c' || c = '\x1d' || c = '\x1e' || c = '\x85' ||
  c.toNat = 8232 || c.toNat = 8233

/-- Python `str.splitlines()`. -/
def pySplitLines : List Char → List (List Char)
  | [] => []
  | '\r' :: '\n' :: rest => [] :: pySplitLines rest
  | c :: rest =>
      if isLineBreakChar c then [] :: pySplitLines rest
      else
        match pySplitLines rest with
        | [] => [[c]]
        | l :: ls => (c :: l) :: ls

/-- Length of the run of copies of `c` at the head of a string. -/
def countLeading (c : Char) (cs : List Char) : Nat :=
  (cs.takeWhile (fun d => d = c)).length

/-- The effect of `re.sub(r"^#{1,6}\s*", "", s).strip()`: remove at most six
leading `#` (at least one must be present for the pattern to match) and the
whitespace following them. -/
def stepHash (s : List Char) : List Char :=
  let h := countLeading '#' s
  pyStrip (if 1 ≤ h then (s.drop (min h 6)).dropWhile isPySpace else s)

/-- The effect of `re.sub(r"^\*{1,2}", "", s).strip()`. -/
def stepBoldLead (s : List Char) : List Char :=
  let a := countLeading '*' s
  pyStrip (if 1 ≤ a then s.drop (min a 2) else s)

/-- The effect of `re.sub(r"\*{1,2}$", "", s).strip()`. -/
def stepBoldTrail (s : List Char) : List Char :=
  let t := countLeading '*' s.reverse
  pyStrip (if 1 ≤ t then (s.reverse.drop (min t 2)).reverse else s)

/-- The effect of `re.sub(r"^\[", "", s).strip()` (also of `^\[?`). -/
def stripLeadBracket (s : List Char) : List Char :=
  pyStrip
    (match s with
     | '[' :: r => r
     | _ => s)

/-- The effect of `re.sub(r"]?", "", s, count=1).strip()`: the first match of
`]?` is at position 0 (a leading `]`, or the empty string), so only a leading
`]` is ever removed. -/
def stepCloseBracket (s : List Char) : List Char :=
  pyStrip
    (match s with
     | ']' :: r => r
     | _ => s)

/-- The optional prefix word `re.match(r"^([A-Za-z]\w{0,29})\s+(.*)", s)`:
when the maximal word-character run from an alphabetic first character has
length at most 30 and is followed by whitespace, continue with the rest
(`group(2).strip()`). -/
def stepWordGroup (s : List Char) : List Char :=
  match s with
  | c :: _ =>
      let r := (s.takeWhile isPyWord).length
      if isPyAlpha c && decide (r ≤ 30) then
        match s.drop r with
        | sp :: _ =>
            if isPySpace sp then pyStrip ((s.drop r).dropWhile isPySpace) else s
        | [] => s
      else s
  | [] => s

/-- The `v`/`V` prefix strip: `if len(s) > 1 and s[0] in ("v", "V") and
s[1].isdigit(): s = s[1:]`. -/
def stepVee (s : List Char) : List Char :=
  match s with
  | c :: d :: rest =>
      if (c = 'v' || c = 'V') && isPyDigit d then d :: rest else s
  | _ => s

/-- The anchored match of `_VERSION_RE = ^(\d+\.\d+(?:\.\d+)?)`: the version
text and the remainder of the string. -/
def matchVersionNum (s : List Char) : Option (List Char × List Char) :=
  let d1 := s.takeWhile isPyDigit
  if d1.isEmpty then none
  else
    match s.dropWhile isPyDigit with
    | '.' :: r2 =>
        let d2 := r2.takeWhile isPyDigit
        if d2.isEmpty then none
        else
          match r2.dropWhile isPyDigit with
          | '.' :: r4 =>
              let d3 := r4.takeWhile isPyDigit
              if d3.isEmpty then some (d1 ++ '.' :: d2, '.' :: r4)
              else some (d1 ++ '.' :: d2 ++ '.' :: d3, r4.dropWhile isPyDigit)
          | r3 => some (d1 ++ '.' :: d2, r3)
    | _ => none

/-- The effect of `re.sub(r"^[]* ]+", "", remainder).strip()` (the character
class contains `]`, `*` and space). -/
def remStep1 (r : List Char) : List Char :=
  pyStrip (r.dropWhile (fun c => c = ']' || c = '*' || c = ' '))

/-- The effect of `re.sub(r"^[-–]\s*\d{4}[\d\-]*\s*", "", remainder).strip()`. -/
def remStep2 (r : List Char) : List Char :=
  match r with
  | c :: rest =>
      if c = '-' || c = '–' then
        let rest1 := rest.dropWhile isPySpace
        if 4 ≤ (rest1.takeWhile isPyDigit).length then
          pyStrip (((rest1.drop 4).dropWhile (fun c => isPyDigit c || c = '-')).dropWhile
            isPySpace)
        else pyStrip r
      else pyStrip r
  | [] => pyStrip r

/-- The effect of `re.sub(r"^\(\d{4}[\d\-]*\)\s*", "", remainder).strip()`. -/
def remStep3 (r : List Char) : List Char :=
  match r with
  | '(' :: rest =>
      if 4 ≤ (rest.takeWhile isPyDigit).length then
        match rest.dropWhile (fun c => isPyDigit c || c = '-') with
        | ')' :: rest2 => pyStrip (rest2.dropWhile isPySpace)
        | _ => pyStrip r
      else pyStrip r
  | _ => pyStrip r

/-- Number of words of `remainder.split()` (maximal non-whitespace runs). -/
def countWordsAux (inWord : Bool) : List Char → Nat
  | [] => 0
  | c :: rest =>
      if isPySpace c then countWordsAux false rest
      else (if inWord then 0 else 1) + countWordsAux true rest

/-- Python `len(s.split())`. -/
def countWords (r : List Char) : Nat := countWordsAux false r

/-- The function `_parse_version_from_line` of `migratowl/core/changelog.py`
(signal A+C of the recognizer). -/
def parse_version_from_line (line : List Char) : Option (List Char) :=
  let s1 := stepHash (pyStrip line)
  let s2 := stepBoldTrail (stepBoldLead s1)
  let s3 := stripLeadBracket s2
  let s4 := stepWordGroup s3
  let s5 := stepVee s4
  let s6 := stripLeadBracket s5
  let s7 := stepCloseBracket s6
  match matchVersionNum s7 with
  | none => none
  | some (ver, rem0) =>
      let rem3 := remStep3 (remStep2 (remStep1 (pyStrip rem0)))
      if 2 < countWords rem3 then none else some ver

/-- Full match of `[-=]{3,}`: at least three characters, all `-` or `=`. -/
def isSetextLine (l : List Char) : Bool :=
  decide (3 ≤ l.length) && l.all (fun c => c = '-' || c = '=')

/-- The ATX-heading signal `re.match(r"^#{1,6}\s", raw)`. -/
def atxSignal (raw : List Char) : Bool :=
  let h := countLeading '#' raw
  decide (1 ≤ h) && decide (h ≤ 6) &&
    (match raw.drop h with
     | c :: _ => isPySpace c
     | [] => false)

/-- The bold-wrapper signal `re.match(r"^\*{1,2}[^*\s]", stripped)`. -/
def boldSignal (stripped : List Char) : Bool :=
  let a := countLeading '*' stripped
  decide (1 ≤ a) && decide (a ≤ 2) &&
    (match stripped.drop a with
     | c :: _ => !isPySpace c && !(c = '*')
     | [] => false)

/-- Suffix predicate for `re.sub(r"\s*\([\d\-]+\)\s*$", "", bare)`. -/
def parenTailMatch (suf : List Char) : Bool :=
  match suf.dropWhile isPySpace with
  | '(' :: r =>
      if (r.takeWhile (fun c => isPyDigit c || c = '-')).isEmpty then false
      else
        match r.dropWhile (fun c => isPyDigit c || c = '-') with
        | ')' :: r2 => (r2.dropWhile isPySpace).isEmpty
        | _ => false
  | _ => false

/-- Suffix predicate for `re.sub(r"\s*[-–]\s*[\d\-]+\s*$", "", bare)`. -/
def dashTailMatch (suf : List Char) : Bool :=
  match suf.dropWhile isPySpace with
  | c :: r =>
      if c = '-' || c = '–' then
        let r1 := r.dropWhile isPySpace
        !(r1.takeWhile (fun c => isPyDigit c || c = '-')).isEmpty &&
          ((r1.dropWhile (fun c => isPyDigit c || c = '-')).dropWhile isPySpace).isEmpty
      else false
  | [] => false

/-- Remove the suffix starting at the leftmost position whose suffix satisfies
`pred` (the semantics of an end-anchored `re.sub`). -/
def removeSuffixMatch (pred : List Char → Bool) : List Char → List Char
  | [] => []
  | c :: rest => if pred (c :: rest) then [] else c :: removeSuffixMatch pred rest

/-- The bare-version signal of `_is_header_position`: strip a leading `v`, a
trailing parenthesised date, a trailing dashed date, and require a full
`\d+\.\d+(\.\d+)?` match. -/
def bareVersionSignal (stripped : List Char) : Bool :=
  let b0 :=
    match stripped with
    | 'v' :: r => r
    | _ => stripped
  let b1 := pyStrip (removeSuffixMatch parenTailMatch b0)
  let b2 := pyStrip (removeSuffixMatch dashTailMatch b1)
  match matchVersionNum b2 with
  | some (_, rem) => rem.isEmpty
  | none => false

/-- The function `_is_header_position` of `migratowl/core/changelog.py`
(signal B of the recognizer). -/
def _is_header_position (i : Nat) (lines : List (List Char)) : Bool :=
  let raw := (lines.get? i).getD []
  let stripped := pyStrip raw
  atxSignal raw ||
  boldSignal stripped ||
  (decide (i + 1 < lines.length) && isSetextLine (pyStrip ((lines.get? (i + 1)).getD []))) ||
  (bareVersionSignal stripped &&
    (decide (i = 0) || (pyStrip ((lines.get? (i - 1)).getD [])).isEmpty))

/-- Offset of line `j`: the sum of `len(line) + 1` over the previous lines,
exactly the `offsets` list built by `chunk_changelog_by_version`. -/
def offsetAt (lines : List (List Char)) (j : Nat) : Nat :=
  ((lines.take j).map (fun l => l.length + 1)).sum

/-- The header-collection loop of `chunk_changelog_by_version`: walk the lines
with their index and char offset, keeping `(i, version, offset)` for every line
that passes both recognizer signals. `full` is the complete line list (for the
neighbour look-ups of `_is_header_position`). -/
def headerPosAux (full : List (List Char)) : Nat → Nat → List (List Char) →
    List (Nat × List Char × Nat)
  | _, _, [] => []
  | i, pos, l :: ls =>
      let rest := headerPosAux full (i + 1) (pos + l.length + 1) ls
      match parse_version_from_line l with
      | some v => if _is_header_position i full then (i, v, pos) :: rest else rest
      | none => rest

/-- Python `text[a:b]`. -/
def sliceText (text : List Char) (a b : Nat) : List Char := (text.take b).drop a

/-- The chunk-construction loop of `chunk_changelog_by_version`: for each
header, content runs from the line after the header (skipping one
reStructuredText underline) to the next header's char offset (or the end of
text), then is stripped. -/
def buildChunks (text : List Char) (lines : List (List Char)) :
    List (Nat × List Char × Nat) → List Chunk
  | [] => []
  | (li, v, _) :: rest =>
      let cl0 := li + 1
      let contentLine :=
        if cl0 < lines.length && isSetextLine (pyStrip ((lines.get? cl0).getD [])) then
          cl0 + 1
        else cl0
      let contentStart := if contentLine < lines.length then offsetAt lines contentLine
        else text.length
      let contentEnd :=
        match rest with
        | (_, _, off) :: _ => off
        | [] => text.length
      ⟨⟨v⟩, ⟨pyStrip (sliceText text contentStart contentEnd)⟩⟩ ::
        buildChunks text lines rest

/-- The function `chunk_changelog_by_version` of `migratowl/core/changelog.py`
on a character list. -/
def chunk_changelog_by_version (text : List Char) : List Chunk :=
  if (pyStrip text).isEmpty then []
  else
    let lines := pySplitLines text
    let headers := headerPosAux lines 0 0 lines
    if headers.isEmpty then [] else buildChunks text lines headers

/-! ## changelog.py: the Releases-API synthetic changelog -/

/-- One GitHub release as read by `_fetch_from_github_releases`: its
`tag_name`, `body` (possibly `null`), and the `draft`/`prerelease` flags. -/
structure Release where
  tag_name : String
  body : Option String
  draft : Bool
  prerelease : Bool
deriving DecidableEq, Repr

/-- The filter `[r for r in all_releases if not r.get("draft") and not
r.get("prerelease")]`. -/
def usable_releases (rs : List Release) : List Release :=
  rs.filter (fun r => !r.draft && !r.prerelease)

/-- The body text used for a release: `r.get("body") or ""`. -/
def bodyOf (r : Release) : List Char := (r.body.getD "").data

/-- One synthetic section `f"## {tag_name}\n{body}"`. -/
def release_section (r : Release) : List Char :=
  '#' :: '#' :: ' ' :: r.tag_name.data ++ '\n' :: bodyOf r

/-- Python `"\n\n".join(sections)`. -/
def joinSections : List (List Char) → List Char
  | [] => []
  | [s] => s
  | s :: rest => s ++ '\n' :: '\n' :: joinSections rest

/-- The synthetic changelog text built by `_fetch_from_github_releases` from
the retained releases. -/
def releases_changelog_text (rs : List Release) : List Char :=
  joinSections ((usable_releases rs).map release_section)

/-! ### Proof-side views of the chunker on Releases-API texts -/

/-- Join lines with a single `\n` between them (inverse of `pySplitLines` on
texts whose only line boundary is `\n` and that do not end in `\n`). -/
def joinNL : List (List Char) → List Char
  | [] => []
  | [l] => l
  | l :: ls => l ++ '\n' :: joinNL ls

/-- Join lines, terminating every line with `\n`. -/
def joinTerm (ls : List (List Char)) : List Char :=
  (ls.map (fun l => l ++ ['\n'])).flatten

/-- Total char length of `\n`-terminated lines: what the chunker's `offsets`
accumulator adds per line. -/
def sumLens (ls : List (List Char)) : Nat := (ls.map (fun l => l.length + 1)).sum

/-- The header-collection loop with the position signal dropped: used for line
lists in which every version-parseable line is ATX-shaped (so the position
signal is automatically true) and every other line is not version-parseable. -/
def headerPosSimple : Nat → Nat → List (List Char) → List (Nat × List Char × Nat)
  | _, _, [] => []
  | i, pos, l :: ls =>
      let rest := headerPosSimple (i + 1) (pos + l.length + 1) ls
      match parse_version_from_line l with
      | some v => (i, v, pos) :: rest
      | none => rest

/-- The synthetic header line `## {tag_name}` of one release. -/
def headerLineOf (r : Release) : List Char := '#' :: '#' :: ' ' :: r.tag_name.data

/-- The blank separator lines a non-last section contributes: one blank line
(two when the body is empty, because the section's own trailing `\n` then
directly meets the `\n\n` separator). -/
def padLines (r : Release) (isLast : Bool) : List (List Char) :=
  if isLast then [] else [[]] ++ (if bodyOf r = [] then [[]] else [])

/-- The lines contributed by one release's section to the joined text: its
header line, its body lines, and the blank separator lines. -/
def blockLines (r : Release) (isLast : Bool) : List (List Char) :=
  headerLineOf r :: pySplitLines (bodyOf r) ++ padLines r isLast

/-- The full line list of the joined text. -/
def flattenBlocks : List Release → List (List Char)
  | [] => []
  | r :: rest => blockLines r rest.isEmpty ++ flattenBlocks rest

/-- The expected header triples `(line index, version, char offset)`: one per
release, at the start of its block. -/
def blocksHeaders : Nat → Nat → List Release → List (Nat × List Char × Nat)
  | _, _, [] => []
  | i, pos, r :: rest =>
      (i, (parse_version_from_line (headerLineOf r)).getD [], pos) ::
        blocksHeaders (i + (blockLines r rest.isEmpty).length)
          (pos + sumLens (blockLines r rest.isEmpty)) rest

/-- Hypotheses on one retained release under which the Releases-API round-trip
holds (each is forced by a counterexample): the tag contains no line boundary;
the synthetic header `## {tag}` is version-parseable; the body's only line
boundary character is `\n`; no body line is itself version-parseable; the body
carries no leading/trailing whitespace; and the body's first line is not a
setext underline (which the chunker would swallow). -/
def GoodRelease (r : Release) : Prop :=
  (∀ c ∈ r.tag_name.data, isLineBreakChar c = false) ∧
  (parse_version_from_line (headerLineOf r)).isSome = true ∧
  (∀ c ∈ bodyOf r, isLineBreakChar c = true → c = '\n') ∧
  (∀ bl ∈ pySplitLines (bodyOf r), parse_version_from_line bl = none) ∧
  pyStrip (bodyOf r) = bodyOf r ∧
  (∀ bl ∈ (pySplitLines (bodyOf r)).take 1, isSetextLine (pyStrip bl) = false)

/-- The chunk the recognizer recovers from one good release: the version parsed
from the synthetic `## {tag}` header, and the release body as content. -/
def release_chunk (r : Release) : Chunk :=
  ⟨⟨(parse_version_from_line (headerLineOf r)).getD []⟩, ⟨bodyOf r⟩⟩

instance instDecidableGoodRelease (r : Release) : Decidable (GoodRelease r) := by
  unfold GoodRelease
  infer_instance

/-! ## llm.py: the process-wide LLM-call semaphore -/

/-- Modelled from the spec: the function `get_llm_semaphore` is missing from
`src/migratowl/core/llm.py` — `rag.py` imports and calls it and the unit tests
exercise a lazily-created singleton `_llm_semaphore`, but no definition exists
under `src/`. Per the spec (section 5), it returns a single process-wide
semaphore capping simultaneous LLM calls at `settings.max_concurrent_llm_calls`
(default 5), with an effective cap of 1 when the single-threaded
local-inference backend is in use. `LlmConfig` carries the two settings the
cap depends on. -/
structure LlmConfig where
  max_concurrent_llm_calls : Nat
  use_local_llm : Bool
deriving DecidableEq, Repr

/-- The defaults of `config.py`: `max_concurrent_llm_calls = 5`,
`use_local_llm = False`. -/
def default_llm_config : LlmConfig := ⟨5, false⟩

/-- Modelled from the spec: the effective capacity of the process-wide LLM
semaphore — 1 under a single-threaded local-inference backend regardless of the
configured value, else the configured cap. -/
def effective_llm_cap (cfg : LlmConfig) : Nat :=
  if cfg.use_local_llm then 1 else cfg.max_concurrent_llm_calls

/-- Reachable holder counts of a counting semaphore of capacity `cap` under the
`asyncio.Semaphore` discipline: `acquire` suspends while the count is at
capacity (so it only fires below it), `release` decrements. -/
inductive SemReach (cap : Nat) : Nat → Prop where
  | init : SemReach cap 0
  | acquire {n : Nat} : SemReach cap n → n < cap → SemReach cap (n + 1)
  | release {n : Nat} : SemReach cap (n + 1) → SemReach cap n

/-- The steps of the semaphore-guarded section of `rag.query`
(`migratowl/core/rag.py`): `async with get_llm_semaphore():` around the
structured-extraction call. -/
inductive QueryStep where
  | acquireSem
  | llmCall
  | releaseSem
deriving DecidableEq, Repr

/-- The guarded section of `rag.query` in source order. -/
def rag_query_llm_section : List QueryStep := [.acquireSem, .llmCall, .releaseSem]

/-- Number of semaphore permits held after a sequence of steps. -/
def heldCount (steps : List QueryStep) : Nat :=
  steps.foldl
    (fun n s =>
      match s with
      | .acquireSem => n + 1
      | .releaseSem => n - 1
      | .llmCall => n)
    0

/-! ## Theorems -/

theorem sub_contents_small (l : List Char) (h : l.length ≤ 4000) :
    sub_contents l = [l] := by
  unfold sub_contents pyRangeStep EMBED_CHUNK_CHARS
  have hc : (max l.length 1 + 4000 - 1) / 4000 = 1 := by
    have h2 : max l.length 1 ≤ 4000 := by
      rcases Nat.eq_zero_or_pos l.length with h0 | h0
      · simp [h0]
      · simpa [Nat.max_eq_left h0] using h
    have h1 : 1 ≤ max l.length 1 := le_max_right _ _
    omega
  rw [hc]
  simp [List.range_succ, List.take_of_length_le h]

theorem sub_contents_cons (l : List Char) (h : 4000 < l.length) :
    sub_contents l = l.take 4000 :: sub_contents (l.drop 4000) := by
  unfold sub_contents pyRangeStep EMBED_CHUNK_CHARS
  have hms : max l.length 1 = l.length := Nat.max_eq_left (by omega)
  have hms2 : max (l.drop 4000).length 1 = (l.drop 4000).length := by
    rw [List.length_drop]; exact Nat.max_eq_left (by omega)
  have hc : (max l.length 1 + 4000 - 1) / 4000
      = (max (l.drop 4000).length 1 + 4000 - 1) / 4000 + 1 := by
    rw [hms, hms2, List.length_drop]
    have hsplit : l.length + 4000 - 1 = (l.length - 4000 + 4000 - 1) + 4000 := by omega
    rw [hsplit, Nat.add_div_right _ (by norm_num)]
  rw [hc, List.range_succ_eq_map]
  simp only [List.map_cons, List.map_map, List.cons.injEq]
  refine ⟨by simp, ?_⟩
  apply List.map_congr_left
  intro k _
  simp only [Function.comp_apply, List.drop_drop]
  congr 2
  omega

theorem sub_contents_flatten (l : List Char) : (sub_contents l).flatten = l := by
  by_cases h : l.length ≤ 4000
  · rw [sub_contents_small l h]; simp
  · push_neg at h
    have hdl : (l.drop 4000).length < l.length := by
      rw [List.length_drop]; omega
    rw [sub_contents_cons l h, List.flatten_cons, sub_contents_flatten (l.drop 4000)]
    exact List.take_append_drop 4000 l
termination_by l.length

theorem docs_from_map_document (dep version : String) (idx : Nat) (ls : List (List Char)) :
    ((docs_from dep version idx ls).map (fun d => d.document.data)) = ls := by
  induction ls generalizing idx with
  | nil => rfl
  | cons sc rest ih => simp [docs_from, ih]

theorem docs_from_mem (dep version : String) (idx : Nat) (ls : List (List Char))
    (d : StoredDoc) (hd : d ∈ docs_from dep version idx ls) :
    d.metaDep = dep ∧ d.metaVersion = version ∧ d.document.data ∈ ls := by
  induction ls generalizing idx with
  | nil => cases hd
  | cons sc rest ih =>
    simp only [docs_from, List.mem_cons] at hd
    rcases hd with rfl | h
    · exact ⟨rfl, rfl, List.mem_cons_self _ _⟩
    · have h2 := ih (idx + 1) h
      exact ⟨h2.1, h2.2.1, List.mem_cons_of_mem _ h2.2.2⟩

theorem docs_from_length (dep version : String) (idx : Nat) (ls : List (List Char)) :
    (docs_from dep version idx ls).length = ls.length := by
  induction ls generalizing idx with
  | nil => rfl
  | cons sc rest ih => simp [docs_from, ih]

theorem sub_contents_mem_length (l : List Char) (x : List Char) (hx : x ∈ sub_contents l) :
    x.length ≤ EMBED_CHUNK_CHARS := by
  unfold sub_contents at hx
  rcases List.mem_map.mp hx with ⟨i, _, rfl⟩
  simp [EMBED_CHUNK_CHARS]

theorem sub_contents_count_of_len (l : List Char) (h : l.length = 10000) :
    (sub_contents l).length = 3 := by
  unfold sub_contents pyRangeStep
  simp only [List.length_map, List.length_range, h, EMBED_CHUNK_CHARS]
  omega

/-- C8: `embed_changelog` splits each chunk's content into contiguous sub-chunks of
at most `EMBED_CHUNK_CHARS = 4000` characters, with no loss and no overlap (their
concatenation is the original content), a content of length `2.5 ×` the budget
(10000 characters) yields exactly 3 sub-chunks, and every stored sub-chunk carries
the parent chunk's `(dep_name, version)` metadata. -/
theorem embed_changelog_subchunking (dep : String) (chunks : List Chunk) (ch : Chunk)
    (hch : ch ∈ chunks) :
    embed_changelog dep chunks = (chunks.map (docs_for dep)).flatten ∧
    ((docs_for dep ch).map (fun d => d.document.data)).flatten = ch.content.data ∧
    (∀ d ∈ docs_for dep ch,
      d.document.length ≤ EMBED_CHUNK_CHARS ∧ d.metaDep = dep ∧ d.metaVersion = ch.version) ∧
    (ch.content.length = 2 * EMBED_CHUNK_CHARS + EMBED_CHUNK_CHARS / 2 →
      (docs_for dep ch).length = 3) := by
  refine ⟨rfl, ?_, ?_, ?_⟩
  · unfold docs_for
    rw [docs_from_map_document, sub_contents_flatten]
  · intro d hd
    have h := docs_from_mem dep ch.version 0 _ d hd
    refine ⟨?_, h.1, h.2.1⟩
    exact sub_contents_mem_length ch.content.data d.document.data h.2.2
  · intro hlen
    unfold docs_for
    rw [docs_from_length]
    apply sub_contents_count_of_len
    rw [show 2 * EMBED_CHUNK_CHARS + EMBED_CHUNK_CHARS / 2 = 10000 from by
      norm_num [EMBED_CHUNK_CHARS]] at hlen
    exact hlen

/-- Witness for `embed_changelog_subchunking` at a concrete chunk list. -/
theorem embed_changelog_subchunking_witness :
    (⟨"2.0.0", "hello"⟩ : Chunk) ∈ [(⟨"2.0.0", "hello"⟩ : Chunk)] ∧
    (embed_changelog "requests" [⟨"2.0.0", "hello"⟩]
        = ([(⟨"2.0.0", "hello"⟩ : Chunk)].map (docs_for "requests")).flatten ∧
      ((docs_for "requests" ⟨"2.0.0", "hello"⟩).map (fun d => d.document.data)).flatten
        = ("hello" : String).data ∧
      (∀ d ∈ docs_for "requests" ⟨"2.0.0", "hello"⟩,
        d.document.length ≤ EMBED_CHUNK_CHARS ∧ d.metaDep = "requests" ∧
          d.metaVersion = "2.0.0") ∧
      (("hello" : String).length = 2 * EMBED_CHUNK_CHARS + EMBED_CHUNK_CHARS / 2 →
        (docs_for "requests" ⟨"2.0.0", "hello"⟩).length = 3)) :=
  ⟨List.mem_singleton.mpr rfl,
    embed_changelog_subchunking "requests" [⟨"2.0.0", "hello"⟩] ⟨"2.0.0", "hello"⟩
      (List.mem_singleton.mpr rfl)⟩

/-- C10: `build_report` sets both `total_dependencies` and `outdated_count` to the
length of the assessments list, so the two counts always coincide and
`total_dependencies` counts only the dependencies that produced an impact
assessment. -/
theorem build_report_counts (project_path timestamp : String)
    (assessments : List ImpactAssessment) (patches errors : List String) :
    (build_report project_path timestamp assessments patches errors).total_dependencies
        = assessments.length ∧
    (build_report project_path timestamp assessments patches errors).outdated_count
        = assessments.length :=
  ⟨rfl, rfl⟩

theorem data_infix_append (pre dep : String) : dep.data <:+: (pre ++ dep).data := by
  rw [String.data_append]
  exact (List.suffix_append pre.data dep.data).isInfix

theorem fetch_changelog_cases (cu ru : Option String) (dep tok : String)
    (env : FetchOutcomes) :
    (∃ t, fetch_changelog cu ru dep tok env = (t, [])) ∨
    fetch_changelog cu ru dep tok env
      = ("", ["No changelog URL or repository URL provided for " ++ dep]) ∨
    fetch_changelog cu ru dep tok env
      = ("", ["Could not fetch changelog for " ++ dep]) := by
  rcases env with ⟨uf, gf, gr⟩
  by_cases htok : tok = "" <;>
    cases hcu : pyTruthy cu <;> cases hru : pyTruthy ru <;>
      rcases uf with u | u <;> rcases gf with f | f <;> rcases gr with r | r <;>
        simp [fetch_changelog, firstOkStrategy, hcu, hru, htok]

/-- C5: `fetch_changelog` never raises and always returns a `(text, warnings)`
pair: with no usable URL it returns empty text plus a diagnostic naming the
dependency; when every configured strategy fails it returns empty text plus a
diagnostic naming the dependency; warnings are empty exactly when some
configured strategy succeeded; and any failure produces empty text with a
single warning containing the dependency name. -/
theorem fetch_changelog_total (cu ru : Option String) (dep tok : String)
    (env : FetchOutcomes) :
    ((pyTruthy cu = false ∧ pyTruthy ru = false) →
      fetch_changelog cu ru dep tok env
        = ("", ["No changelog URL or repository URL provided for " ++ dep])) ∧
    ((pyTruthy cu = true ∨ pyTruthy ru = true) →
      (pyTruthy cu = true → env.url_fetch = .error ()) →
      (pyTruthy ru = true → env.github_files = .error () ∧ env.github_releases = .error ()) →
      fetch_changelog cu ru dep tok env
        = ("", ["Could not fetch changelog for " ++ dep])) ∧
    ((fetch_changelog cu ru dep tok env).2 = [] ↔
      ((pyTruthy cu = true ∧ ∃ t, env.url_fetch = .ok t) ∨
       (pyTruthy ru = true ∧
         ((∃ t, env.github_files = .ok t) ∨ (∃ t, env.github_releases = .ok t))))) ∧
    ((fetch_changelog cu ru dep tok env).2 ≠ [] →
      (fetch_changelog cu ru dep tok env).1 = "" ∧
      ∃ msg, (fetch_changelog cu ru dep tok env).2 = [msg] ∧ dep.data <:+: msg.data) := by
  refine ⟨?_, ?_, ?_, ?_⟩
  · rcases env with ⟨uf, gf, gr⟩
    by_cases htok : tok = "" <;>
      cases hcu : pyTruthy cu <;> cases hru : pyTruthy ru <;>
        rcases uf with u | u <;> rcases gf with f | f <;> rcases gr with r | r <;>
          simp [fetch_changelog, firstOkStrategy, hcu, hru, htok]
  · rcases env with ⟨uf, gf, gr⟩
    by_cases htok : tok = "" <;>
      cases hcu : pyTruthy cu <;> cases hru : pyTruthy ru <;>
        rcases uf with u | u <;> rcases gf with f | f <;> rcases gr with r | r <;>
          simp [fetch_changelog, firstOkStrategy, hcu, hru, htok]
  · rcases env with ⟨uf, gf, gr⟩
    by_cases htok : tok = "" <;>
      cases hcu : pyTruthy cu <;> cases hru : pyTruthy ru <;>
        rcases uf with u | u <;> rcases gf with f | f <;> rcases gr with r | r <;>
          simp [fetch_changelog, firstOkStrategy, hcu, hru, htok]
  · intro hne
    rcases fetch_changelog_cases cu ru dep tok env with ⟨t, heq⟩ | heq | heq
    · rw [heq] at hne; simp at hne
    · rw [heq]
      exact ⟨rfl, _, rfl, data_infix_append _ _⟩
    · rw [heq]
      exact ⟨rfl, _, rfl, data_infix_append _ _⟩

/-- Witness for `fetch_changelog_total` at concrete inputs (no URLs provided). -/
theorem fetch_changelog_total_witness :
    (pyTruthy none = false ∧ pyTruthy (some "") = false) ∧
    fetch_changelog none (some "") "requests" "" ⟨.error (), .error (), .error ()⟩
      = ("", ["No changelog URL or repository URL provided for " ++ "requests"]) :=
  ⟨⟨rfl, rfl⟩,
    (fetch_changelog_total none (some "") "requests" "" ⟨.error (), .error (), .error ()⟩).1
      ⟨rfl, rfl⟩⟩

theorem rag_retry_loop_calls_le {α : Type} (oracle : Nat → Except Unit (ℚ × List α))
    (threshold : ℚ) (max_retries retry : Nat) :
    (rag_retry_loop oracle threshold max_retries retry).analyze_calls
      ≤ max_retries - retry + 1 := by
  unfold rag_retry_loop
  cases ho : oracle retry with
  | error e => simp
  | ok p =>
    obtain ⟨conf, res⟩ := p
    dsimp only
    by_cases h : conf < threshold ∧ retry < max_retries
    · rw [dif_pos h]
      have ih := rag_retry_loop_calls_le oracle threshold max_retries (retry + 1)
      simp only [RagLoopResult.analyze_calls]
      omega
    · rw [dif_neg h]
      simp
termination_by max_retries + 1 - retry
decreasing_by omega

theorem rag_retry_loop_low_confidence {α : Type} (oracle : Nat → Except Unit (ℚ × List α))
    (threshold : ℚ) (max_retries retry : Nat) (c : ℚ) (res : List α)
    (horacle : ∀ n, oracle n = .ok (c, res)) (hc : c < threshold)
    (hr : retry ≤ max_retries) :
    (rag_retry_loop oracle threshold max_retries retry).analyze_calls
        = max_retries - retry + 1 ∧
    (rag_retry_loop oracle threshold max_retries retry).retry_count = max_retries ∧
    (rag_retry_loop oracle threshold max_retries retry).rag_results = res ∧
    (rag_retry_loop oracle threshold max_retries retry).next_node = DepNode.parse_code := by
  unfold rag_retry_loop
  rw [horacle retry]
  dsimp only
  by_cases h : retry < max_retries
  · have ih := rag_retry_loop_low_confidence oracle threshold max_retries (retry + 1) c res
      horacle hc (by omega)
    rw [dif_pos ⟨hc, h⟩]
    refine ⟨?_, ih.2.1, ih.2.2.1, ih.2.2.2⟩
    simp only [RagLoopResult.analyze_calls]
    have := ih.1
    omega
  · have hng : ¬(c < threshold ∧ retry < max_retries) := fun hco => h hco.2
    rw [dif_neg hng]
    have heq : retry = max_retries := by omega
    simp [heq]
termination_by max_retries + 1 - retry
decreasing_by omega

/-- C4: the `rag_analyze ⇄ refine_query` self-loop always terminates — from
`retry_count = 0` it invokes `rag.query` at most `MAX_RAG_RETRIES + 1` times for
any oracle — and when the extraction service always returns a fixed confidence
below `CONFIDENCE_THRESHOLD` (e.g. 0.2 < 0.6) the worker performs exactly
`MAX_RAG_RETRIES = 3` extra `rag_analyze` attempts beyond the first (4 calls in
total), ends with `retry_count = MAX_RAG_RETRIES`, and then routes
unconditionally to `parse_code`. -/
theorem rag_retry_loop_bounded {α : Type} (oracle : Nat → Except Unit (ℚ × List α)) :
    ((rag_retry_loop oracle CONFIDENCE_THRESHOLD MAX_RAG_RETRIES 0).analyze_calls
        ≤ MAX_RAG_RETRIES + 1) ∧
    (∀ (c : ℚ) (res : List α), (∀ n, oracle n = .ok (c, res)) → c < CONFIDENCE_THRESHOLD →
      (rag_retry_loop oracle CONFIDENCE_THRESHOLD MAX_RAG_RETRIES 0).analyze_calls
          = 1 + MAX_RAG_RETRIES ∧
      (rag_retry_loop oracle CONFIDENCE_THRESHOLD MAX_RAG_RETRIES 0).retry_count
          = MAX_RAG_RETRIES ∧
      (rag_retry_loop oracle CONFIDENCE_THRESHOLD MAX_RAG_RETRIES 0).next_node
          = DepNode.parse_code) := by
  constructor
  · have h := rag_retry_loop_calls_le oracle CONFIDENCE_THRESHOLD MAX_RAG_RETRIES 0
    omega
  · intro c res horacle hc
    have h := rag_retry_loop_low_confidence oracle CONFIDENCE_THRESHOLD MAX_RAG_RETRIES 0 c res
      horacle hc (by omega)
    refine ⟨?_, h.2.1, h.2.2.2⟩
    have := h.1
    omega

theorem point_two_lt_threshold : (1 : ℚ) / 5 < CONFIDENCE_THRESHOLD := by
  norm_num [CONFIDENCE_THRESHOLD]

/-- Witness for `rag_retry_loop_bounded`: the constant confidence-0.2 oracle. -/
theorem rag_retry_loop_bounded_witness :
    ((rag_retry_loop (fun _ => .ok (1 / 5, ([] : List Unit)))
        CONFIDENCE_THRESHOLD MAX_RAG_RETRIES 0).analyze_calls ≤ MAX_RAG_RETRIES + 1) ∧
    ((1 : ℚ) / 5 < CONFIDENCE_THRESHOLD ∧
      (rag_retry_loop (fun _ => .ok (1 / 5, ([] : List Unit)))
          CONFIDENCE_THRESHOLD MAX_RAG_RETRIES 0).analyze_calls = 1 + MAX_RAG_RETRIES) :=
  ⟨(rag_retry_loop_bounded (fun _ => .ok (1 / 5, ([] : List Unit)))).1,
    point_two_lt_threshold,
    ((rag_retry_loop_bounded (fun _ => .ok (1 / 5, ([] : List Unit)))).2 (1 / 5) []
      (fun _ => rfl) point_two_lt_threshold).1⟩

theorem cmpNat_self (a : Nat) : cmpNat a a = .eq := by simp [cmpNat]

theorem cmpList_self {α : Type} (cmp : α → α → Ordering) (h : ∀ a, cmp a a = .eq)
    (l : List α) : cmpList cmp l l = .eq := by
  induction l with
  | nil => rfl
  | cons a as ih => simp [cmpList, h a, ih, Ordering.then]

theorem cmpChar_self (a : Char) : cmpChar a a = .eq := by simp [cmpChar, cmpNat_self]

theorem cmpPreKey_self (k : PreKey) : cmpPreKey k k = .eq := by
  cases k <;> simp [cmpPreKey, cmpNat_self, Ordering.then]

theorem cmpPost_self (o : Option Nat) : cmpPost o o = .eq := by
  cases o <;> simp [cmpPost, cmpNat_self]

theorem cmpDev_self (o : Option Nat) : cmpDev o o = .eq := by
  cases o <;> simp [cmpDev, cmpNat_self]

theorem cmpLocalSeg_self (s : LocalSeg) : cmpLocalSeg s s = .eq := by
  cases s <;> simp [cmpLocalSeg, cmpNat_self, cmpList_self cmpChar cmpChar_self]

theorem cmpLocal_self (o : Option (List LocalSeg)) : cmpLocal o o = .eq := by
  cases o <;> simp [cmpLocal, cmpList_self cmpLocalSeg cmpLocalSeg_self]

theorem pep440Cmp_self (v : Pep440) : pep440Cmp v v = .eq := by
  unfold pep440Cmp
  rw [cmpNat_self, cmpList_self cmpNat cmpNat_self, cmpPreKey_self, cmpPost_self,
    cmpDev_self, cmpLocal_self]
  rfl

theorem pep440Lt_self (v : Pep440) : pep440Lt v v = false := by
  simp [pep440Lt, pep440Cmp_self]

theorem pep440Le_self (v : Pep440) : pep440Le v v = true := by
  simp [pep440Le, pep440Cmp_self]

theorem filterLoop_ver (c l : Pep440) (chunks : List Chunk)
    (h : ∀ ch ∈ chunks, (pep440Parse ch.version).isSome ∨ tupleOfVersion ch.version = none) :
    filterLoop (.ver c) (.ver l) chunks = .ok (chunks.filter (verInRange c l)) := by
  induction chunks with
  | nil => rfl
  | cons ch rest ih =>
    have hch := h ch (List.mem_cons_self _ _)
    have ihe := ih (fun x hx => h x (List.mem_cons_of_mem _ hx))
    rcases hp : pep440Parse ch.version with _ | v
    · rcases hch with hs | ht
      · rw [hp] at hs; simp at hs
      · simp [filterLoop, chunkKey, hp, ht, List.filter_cons, verInRange, ihe]
    · cases hlt : pep440Lt c v <;> cases hle : pep440Le v l <;>
        simp [filterLoop, chunkKey, hp, vkeyLt, vkeyLe, hlt, hle, List.filter_cons,
          verInRange, ihe]

theorem filterLoop_tup (a b : List Int) (chunks : List Chunk)
    (h : ∀ ch ∈ chunks, pep440Parse ch.version = none) :
    filterLoop (.tup a) (.tup b) chunks = .ok (chunks.filter (tupInRange a b)) := by
  induction chunks with
  | nil => rfl
  | cons ch rest ih =>
    have hch := h ch (List.mem_cons_self _ _)
    have ihe := ih (fun x hx => h x (List.mem_cons_of_mem _ hx))
    rcases ht : tupleOfVersion ch.version with _ | t
    · simp [filterLoop, chunkKey, hch, ht, List.filter_cons, tupInRange, ihe]
    · cases hlt : intListLt a t <;> cases hle : intListLe t b <;>
        simp [filterLoop, chunkKey, hch, ht, vkeyLt, vkeyLe, hlt, hle, List.filter_cons,
          tupInRange, ihe]

/-- C1 (amended): when `current_version`, `latest_version`, and every chunk
version parse as PEP 440 versions, `filter_chunks_by_version_range` returns
exactly the `List.filter` of the predicate `current < v ≤ latest` — hence a
subsequence of the input in original document order; no chunk whose version
string equals `current_version` is ever included; and, provided
`current < latest`, every chunk whose version string equals `latest_version` is
included. (The unamended claim fails when `current = latest`: see the
counterexample.) -/
theorem filter_chunks_range_characterization (chunks : List Chunk) (cur lat : String)
    (c l : Pep440) (hcur : pep440Parse cur = some c) (hlat : pep440Parse lat = some l)
    (hall : ∀ ch ∈ chunks, (pep440Parse ch.version).isSome) :
    filter_chunks_by_version_range chunks cur lat
        = .ok (chunks.filter (verInRange c l)) ∧
    (chunks.filter (verInRange c l)).Sublist chunks ∧
    (∀ ch ∈ chunks.filter (verInRange c l), ∃ v, pep440Parse ch.version = some v ∧
        pep440Lt c v = true ∧ pep440Le v l = true) ∧
    (∀ ch, ch.version = cur → ch ∉ chunks.filter (verInRange c l)) ∧
    (pep440Lt c l = true →
      ∀ ch ∈ chunks, ch.version = lat → ch ∈ chunks.filter (verInRange c l)) := by
  refine ⟨?_, List.filter_sublist _, ?_, ?_, ?_⟩
  · unfold filter_chunks_by_version_range
    by_cases he : chunks.isEmpty
    · rw [if_pos he]
      rw [List.isEmpty_iff.mp he]
      rfl
    · rw [if_neg he, hcur, hlat]
      exact filterLoop_ver c l chunks (fun ch hch => Or.inl (hall ch hch))
  · intro ch hch
    have hm := List.mem_filter.mp hch
    have hv := hm.2
    unfold verInRange at hv
    rcases hp : pep440Parse ch.version with _ | v
    · rw [hp] at hv; simp at hv
    · rw [hp] at hv
      simp only [Bool.and_eq_true] at hv
      exact ⟨v, rfl, hv.1, hv.2⟩
  · intro ch hv hmem
    have hm := List.mem_filter.mp hmem
    have hr := hm.2
    unfold verInRange at hr
    rw [hv, hcur] at hr
    simp [pep440Lt_self] at hr
  · intro hcl ch hch hv
    refine List.mem_filter.mpr ⟨hch, ?_⟩
    unfold verInRange
    rw [hv, hlat]
    simp [hcl, pep440Le_self]

/-- Witness for `filter_chunks_range_characterization`: the spec's own concrete
example, chunks 3.0.0 / 2.0.0 / 1.0.0 filtered over `("1.0.0", "3.0.0")`. -/
theorem filter_chunks_range_characterization_witness :
    filter_chunks_by_version_range
        [⟨"3.0.0", "a"⟩, ⟨"2.0.0", "b"⟩, ⟨"1.0.0", "c"⟩] "1.0.0" "3.0.0"
      = .ok [⟨"3.0.0", "a"⟩, ⟨"2.0.0", "b"⟩] := by
  have h := filter_chunks_range_characterization
    [⟨"3.0.0", "a"⟩, ⟨"2.0.0", "b"⟩, ⟨"1.0.0", "c"⟩] "1.0.0" "3.0.0"
    ⟨0, [1, 0, 0], none, none, none, none⟩ ⟨0, [3, 0, 0], none, none, none, none⟩
    (by decide) (by decide) (by decide)
  rw [h.1]
  rfl

/-- Counterexample to C1 as stated: with `current_version = latest_version =
"1.0.0"`, the single chunk's version string equals `latest_version`, yet the
filter returns the empty list (the half-open interval `(v, v]` is empty), so
"every chunk whose version equals latest_version is included" is false without
the `current < latest` proviso. -/
theorem filter_chunks_range_equal_bounds_counterexample :
    filter_chunks_by_version_range [⟨"1.0.0", "x"⟩] "1.0.0" "1.0.0" = .ok [] := by
  rfl

/-- C2 (amended): `filter_chunks_by_version_range` is total on two families of
inputs. (i) When `current_version` and `latest_version` parse as PEP 440 and
every chunk version either parses as PEP 440 or fails the int-tuple
decomposition as well, it returns `.ok`, and every chunk whose version parses
by neither method is silently dropped. (ii) When `current_version` or
`latest_version` fails PEP 440 parsing, both fall back to dot-separated int
tuples (there is no raw-string fallback); the call still returns `.ok` when
both decompose and no chunk version parses as PEP 440, dropping the chunks
whose versions also fail the tuple decomposition. Outside these families the
function can raise — see the counterexample. -/
theorem filter_chunks_fallback_totality (chunks : List Chunk) (cur lat : String) :
    (((pep440Parse cur).isSome ∧ (pep440Parse lat).isSome ∧
        (∀ ch ∈ chunks, (pep440Parse ch.version).isSome ∨ tupleOfVersion ch.version = none)) →
      ∃ res, filter_chunks_by_version_range chunks cur lat = .ok res ∧
        res.Sublist chunks ∧
        (∀ ch ∈ chunks, pep440Parse ch.version = none → ch ∉ res)) ∧
    (((pep440Parse cur = none ∨ pep440Parse lat = none) ∧
        (tupleOfVersion cur).isSome ∧ (tupleOfVersion lat).isSome ∧
        (∀ ch ∈ chunks, pep440Parse ch.version = none)) →
      ∃ res, filter_chunks_by_version_range chunks cur lat = .ok res ∧
        res.Sublist chunks ∧
        (∀ ch ∈ chunks, tupleOfVersion ch.version = none → ch ∉ res)) := by
  constructor
  · rintro ⟨hc, hl, hall⟩
    rcases hcur : pep440Parse cur with _ | c
    · rw [hcur] at hc; simp at hc
    rcases hlat : pep440Parse lat with _ | l
    · rw [hlat] at hl; simp at hl
    refine ⟨chunks.filter (verInRange c l), ?_, List.filter_sublist _, ?_⟩
    · unfold filter_chunks_by_version_range
      by_cases he : chunks.isEmpty
      · rw [if_pos he, List.isEmpty_iff.mp he]; rfl
      · rw [if_neg he, hcur, hlat]
        exact filterLoop_ver c l chunks hall
    · intro ch _ hnone hmem
      have hr := (List.mem_filter.mp hmem).2
      unfold verInRange at hr
      rw [hnone] at hr
      simp at hr
  · rintro ⟨hone, hct, hlt, hall⟩
    rcases hcurt : tupleOfVersion cur with _ | ct
    · rw [hcurt] at hct; simp at hct
    rcases hlatt : tupleOfVersion lat with _ | lt2
    · rw [hlatt] at hlt; simp at hlt
    refine ⟨chunks.filter (tupInRange ct lt2), ?_, List.filter_sublist _, ?_⟩
    · unfold filter_chunks_by_version_range
      by_cases he : chunks.isEmpty
      · rw [if_pos he, List.isEmpty_iff.mp he]; rfl
      · rw [if_neg he]
        have hloop := filterLoop_tup ct lt2 chunks hall
        rcases hone with hcn | hln
        · rw [hcn, hcurt, hlatt]
          rcases pep440Parse lat with _ | _ <;> exact hloop
        · rw [hln, hcurt, hlatt]
          rcases pep440Parse cur with _ | _ <;> exact hloop
    · intro ch _ hnone hmem
      have hr := (List.mem_filter.mp hmem).2
      unfold tupInRange at hr
      rw [hnone] at hr
      simp at hr

/-- Witness for `filter_chunks_fallback_totality`: a parseable range with one
chunk version (`"not.a.version"`) unparseable by both methods, which is
silently dropped. -/
theorem filter_chunks_fallback_totality_witness :
    ∃ res, filter_chunks_by_version_range
        [⟨"2.0.0", "x"⟩, ⟨"not.a.version", "y"⟩] "1.0.0" "3.0.0" = .ok res ∧
      res.Sublist [⟨"2.0.0", "x"⟩, ⟨"not.a.version", "y"⟩] ∧
      (∀ ch ∈ [(⟨"2.0.0", "x"⟩ : Chunk), ⟨"not.a.version", "y"⟩],
        pep440Parse ch.version = none → ch ∉ res) :=
  (filter_chunks_fallback_totality
      [⟨"2.0.0", "x"⟩, ⟨"not.a.version", "y"⟩] "1.0.0" "3.0.0").1
    ⟨by decide, by decide, by decide⟩

/-- Counterexample to C2 as stated: the claim says the function is total for
all string inputs, with an ultimate raw-string-inequality fallback. In fact,
when `current_version` fails both PEP 440 parsing and the int-tuple
decomposition (`int("banana")` raises), `filter_chunks_by_version_range`
raises `ValueError` — there is no string fallback in the code. -/
theorem filter_chunks_raises_counterexample :
    filter_chunks_by_version_range [⟨"1.0.0", "c"⟩] "banana" "2.0.0"
      = .error .valueError := by
  rfl

theorem is_newer_iff (lat cur : String) :
    _is_newer lat cur = true ↔
      ((∃ l c, pep440Parse lat = some l ∧ pep440Parse cur = some c ∧ pep440Lt c l = true) ∨
       ((pep440Parse lat = none ∨ pep440Parse cur = none) ∧ lat ≠ cur)) := by
  unfold _is_newer
  rcases hl : pep440Parse lat with _ | l <;> rcases hc : pep440Parse cur with _ | c <;>
    simp [hl, hc, bne_iff_ne]

theorem mem_find_outdated (deps : List Dependency)
    (lookup : Dependency → Except String RegistryInfo) (od : OutdatedDependency) :
    od ∈ (find_outdated deps lookup).1 ↔
      ∃ d ∈ deps, ∃ info, lookup d = .ok info ∧
        _is_newer info.latest_version d.current_version = true ∧ od = mk_outdated d info := by
  unfold find_outdated
  by_cases he : deps.isEmpty
  · rw [if_pos he, List.isEmpty_iff.mp he]
    simp
  · rw [if_neg he]
    simp only [List.mem_filterMap]
    constructor
    · rintro ⟨d, hd, hf⟩
      rcases hlk : lookup d with e | info
      · rw [hlk] at hf; simp at hf
      · rw [hlk] at hf
        cases hn : _is_newer info.latest_version d.current_version
        · simp [hn] at hf
        · simp [hn] at hf
          exact ⟨d, hd, info, hlk, hn, hf.symm⟩
    · rintro ⟨d, hd, info, hlk, hn, rfl⟩
      exact ⟨d, hd, by simp [hlk, hn]⟩

/-- C7: an `OutdatedDependency` is created by `find_outdated` exactly when the
registry lookup succeeded and its `latest_version` is strictly newer than the
dependency's `current_version` under the PEP 440 ordering, falling back to
plain string inequality when either string is not PEP 440-parseable; a version
is never newer than itself; and in particular a current version `"0.13"`
against registry latest `"0.13.0"` is not outdated (the two are semantically
equal although textually different). -/
theorem find_outdated_pep440_strictness (deps : List Dependency)
    (lookup : Dependency → Except String RegistryInfo) (od : OutdatedDependency) :
    (od ∈ (find_outdated deps lookup).1 ↔
      ∃ d ∈ deps, ∃ info, lookup d = .ok info ∧
        ((∃ l c, pep440Parse info.latest_version = some l ∧
            pep440Parse d.current_version = some c ∧ pep440Lt c l = true) ∨
         ((pep440Parse info.latest_version = none ∨ pep440Parse d.current_version = none) ∧
            info.latest_version ≠ d.current_version)) ∧
        od = mk_outdated d info) ∧
    (∀ v : String, _is_newer v v = false) ∧
    (_is_newer "0.13.0" "0.13" = false) ∧
    (find_outdated [⟨"pkg", "0.13", .python, "requirements.txt"⟩]
        (fun _ => .ok ⟨"pkg", "0.13.0", none, none, none⟩) = ([], [])) := by
  refine ⟨?_, ?_, by rfl, by rfl⟩
  · rw [mem_find_outdated]
    constructor
    · rintro ⟨d, hd, info, hlk, hn, heq⟩
      exact ⟨d, hd, info, hlk, (is_newer_iff _ _).mp hn, heq⟩
    · rintro ⟨d, hd, info, hlk, hn, heq⟩
      exact ⟨d, hd, info, hlk, (is_newer_iff _ _).mpr hn, heq⟩
  · intro v
    rcases hp : pep440Parse v with _ | c
    · unfold _is_newer
      rw [hp]
      simp
    · unfold _is_newer
      rw [hp]
      simp [pep440Lt_self]

/-- Witness for `find_outdated_pep440_strictness`: a genuinely newer latest
version (`2.28.0 → 2.31.0`) is classified as outdated. -/
theorem find_outdated_pep440_strictness_witness :
    mk_outdated ⟨"requests", "2.28.0", .python, "requirements.txt"⟩
        ⟨"requests", "2.31.0", none, none, none⟩
      ∈ (find_outdated [⟨"requests", "2.28.0", .python, "requirements.txt"⟩]
          (fun _ => .ok ⟨"requests", "2.31.0", none, none, none⟩)).1 :=
  (find_outdated_pep440_strictness
      [⟨"requests", "2.28.0", .python, "requirements.txt"⟩]
      (fun _ => .ok ⟨"requests", "2.31.0", none, none, none⟩)
      (mk_outdated ⟨"requests", "2.28.0", .python, "requirements.txt"⟩
        ⟨"requests", "2.31.0", none, none, none⟩)).1.mpr
    ⟨⟨"requests", "2.28.0", .python, "requirements.txt"⟩, by decide,
      ⟨"requests", "2.31.0", none, none, none⟩, rfl,
      Or.inl ⟨⟨0, [2, 31, 0], none, none, none, none⟩, ⟨0, [2, 28, 0], none, none, none, none⟩,
        by rfl, by rfl, by rfl⟩, rfl⟩

/-- C6 (code bug): `find_outdated` does capture a human-readable error naming a
dependency whose registry lookup raised, and it keeps classifying the other
dependencies — but those captured errors never surface in the report:
`scan_dependencies_node` binds `outdated = await registry.find_outdated(deps)`
without unpacking the `(outdated, errors)` tuple, so its comprehension iterates
the tuple's two `list` items and `od.name` raises `AttributeError`; the node
never writes the errors into the parent state. -/
theorem find_outdated_errors_dropped_by_scan_node (pp : String) (deps : List Dependency)
    (lookup : Dependency → Except String RegistryInfo) :
    (∀ d ∈ deps, ∀ e, lookup d = .error e →
      ("Registry query failed for " ++ d.name ++ ": " ++ e) ∈ (find_outdated deps lookup).2) ∧
    (∀ d ∈ deps, ∀ info, lookup d = .ok info →
      _is_newer info.latest_version d.current_version = true →
      mk_outdated d info ∈ (find_outdated deps lookup).1) ∧
    scan_dependencies_node pp deps lookup = .error .attributeError := by
  refine ⟨?_, ?_, rfl⟩
  · intro d hd e hlk
    unfold find_outdated
    rw [if_neg (by simp [List.isEmpty_iff]; exact List.ne_nil_of_mem hd)]
    exact List.mem_filterMap.mpr ⟨d, hd, by rw [hlk]⟩
  · intro d hd info hlk hn
    unfold find_outdated
    rw [if_neg (by simp [List.isEmpty_iff]; exact List.ne_nil_of_mem hd)]
    exact List.mem_filterMap.mpr ⟨d, hd, by simp [hlk, hn]⟩

/-- Witness for `find_outdated_errors_dropped_by_scan_node`: one failing lookup
(`alpha`) and one outdated dependency (`beta`) in the same batch. -/
theorem find_outdated_errors_dropped_witness :
    ("Registry query failed for " ++ "alpha" ++ ": " ++ "boom")
        ∈ (find_outdated
            [⟨"alpha", "1.0.0", .python, "req.txt"⟩, ⟨"beta", "1.0.0", .python, "req.txt"⟩]
            (fun d => if d.name = "alpha" then .error "boom"
              else .ok ⟨"beta", "2.0.0", none, none, none⟩)).2 ∧
    mk_outdated ⟨"beta", "1.0.0", .python, "req.txt"⟩ ⟨"beta", "2.0.0", none, none, none⟩
        ∈ (find_outdated
            [⟨"alpha", "1.0.0", .python, "req.txt"⟩, ⟨"beta", "1.0.0", .python, "req.txt"⟩]
            (fun d => if d.name = "alpha" then .error "boom"
              else .ok ⟨"beta", "2.0.0", none, none, none⟩)).1 ∧
    scan_dependencies_node "/proj"
        [⟨"alpha", "1.0.0", .python, "req.txt"⟩, ⟨"beta", "1.0.0", .python, "req.txt"⟩]
        (fun d => if d.name = "alpha" then .error "boom"
          else .ok ⟨"beta", "2.0.0", none, none, none⟩)
      = .error .attributeError := by
  have h := find_outdated_errors_dropped_by_scan_node "/proj"
    [⟨"alpha", "1.0.0", .python, "req.txt"⟩, ⟨"beta", "1.0.0", .python, "req.txt"⟩]
    (fun d => if d.name = "alpha" then .error "boom"
      else .ok ⟨"beta", "2.0.0", none, none, none⟩)
  exact ⟨h.1 ⟨"alpha", "1.0.0", .python, "req.txt"⟩ (by simp) "boom" (by rfl),
    h.2.1 ⟨"beta", "1.0.0", .python, "req.txt"⟩ (by simp) ⟨"beta", "2.0.0", none, none, none⟩
      (by rfl) (by rfl),
    h.2.2⟩

/-- C9 (spec-modelled): under the semaphore discipline, the number of
simultaneously held permits — hence of in-flight LLM calls gated by
`get_llm_semaphore` — never exceeds the effective cap; with the
single-threaded local backend the effective cap is 1 regardless of the
configured value; otherwise it is the configured `max_concurrent_llm_calls`
(default 5); and the structured-extraction call of `rag.query` happens while
at least one permit is held. -/
theorem llm_semaphore_bounds_inflight (cfg : LlmConfig) (n : Nat)
    (h : SemReach (effective_llm_cap cfg) n) :
    n ≤ effective_llm_cap cfg ∧
    (cfg.use_local_llm = true → n ≤ 1) ∧
    (cfg.use_local_llm = false → effective_llm_cap cfg = cfg.max_concurrent_llm_calls) ∧
    effective_llm_cap default_llm_config = 5 ∧
    (∀ i, rag_query_llm_section.get? i = some .llmCall →
      1 ≤ heldCount (rag_query_llm_section.take i)) := by
  have hb : n ≤ effective_llm_cap cfg := by
    induction h with
    | init => exact Nat.zero_le _
    | acquire _ hlt _ => omega
    | release _ ih => omega
  refine ⟨hb, ?_, ?_, rfl, ?_⟩
  · intro hl
    have : effective_llm_cap cfg = 1 := by simp [effective_llm_cap, hl]
    omega
  · intro hl
    simp [effective_llm_cap, hl]
  · intro i hi
    match i, hi with
    | 0, hi => simp [rag_query_llm_section] at hi
    | 1, _ => decide
    | 2, hi => simp [rag_query_llm_section] at hi
    | n + 3, hi => simp [rag_query_llm_section] at hi

/-- Witness for `llm_semaphore_bounds_inflight`: with the local backend
configured for 10 concurrent calls, one holder is reachable and the bound is
1. -/
theorem llm_semaphore_bounds_inflight_witness :
    SemReach (effective_llm_cap ⟨10, true⟩) 1 ∧ 1 ≤ effective_llm_cap ⟨10, true⟩ := by
  have hreach : SemReach (effective_llm_cap ⟨10, true⟩) 1 :=
    SemReach.acquire SemReach.init (by decide)
  exact ⟨hreach, (llm_semaphore_bounds_inflight ⟨10, true⟩ 1 hreach).1⟩

theorem pyStrip_eq_rdrop (b : List Char) :
    pyStrip b = List.rdropWhile isPySpace (b.dropWhile isPySpace) := rfl

theorem pyStrip_parts (b : List Char) (h : pyStrip b = b) :
    b.dropWhile isPySpace = b ∧ List.rdropWhile isPySpace b = b := by
  have h1 := pyStrip_eq_rdrop b
  rw [h] at h1
  have hsfx : b.dropWhile isPySpace <:+ b := List.dropWhile_suffix _
  have hpre : List.rdropWhile isPySpace (b.dropWhile isPySpace) <+: b.dropWhile isPySpace :=
    List.rdropWhile_prefix _ _
  have hlen1 : b.length ≤ (b.dropWhile isPySpace).length := by
    calc b.length = (List.rdropWhile isPySpace (b.dropWhile isPySpace)).length := by rw [← h1]
    _ ≤ (b.dropWhile isPySpace).length := hpre.length_le
  have heq : b.dropWhile isPySpace = b :=
    hsfx.sublist.eq_of_length (le_antisymm hsfx.sublist.length_le hlen1)
  refine ⟨heq, ?_⟩
  rw [heq] at h1
  exact h1.symm

theorem pyStrip_getLast_not_space (b : List Char) (h : pyStrip b = b) (c : Char)
    (hc : b.getLast? = some c) : isPySpace c = false := by
  have h2 := (pyStrip_parts b h).2
  have hb : b ≠ [] := by
    intro hnil
    rw [hnil] at hc
    cases hc
  have hns := (List.rdropWhile_eq_self_iff).mp h2 hb
  rw [List.getLast?_eq_getLast b hb] at hc
  have hcc : b.getLast hb = c := Option.some.inj hc
  rw [← hcc]
  exact Bool.not_eq_true _ |>.mp hns

theorem pyStrip_append_ws (b w : List Char) (hw : ∀ c ∈ w, isPySpace c = true) :
    pyStrip (b ++ w) = pyStrip b := by
  rw [pyStrip_eq_rdrop, pyStrip_eq_rdrop]
  have hwnil : w.dropWhile isPySpace = [] := List.dropWhile_eq_nil_iff.mpr hw
  rw [List.dropWhile_append]
  by_cases hb : (b.dropWhile isPySpace).isEmpty
  · rw [if_pos hb, hwnil]
    rw [List.isEmpty_iff.mp hb]
  · rw [if_neg hb]
    unfold List.rdropWhile
    rw [List.reverse_append]
    rw [List.dropWhile_append]
    have hwrev : w.reverse.dropWhile isPySpace = [] := by
      apply List.dropWhile_eq_nil_iff.mpr
      intro x hx
      exact hw x (List.mem_reverse.mp hx)
    rw [hwrev]
    simp

theorem pyStrip_ne_nil_of_mem (b : List Char) (c : Char) (hc : c ∈ b)
    (hns : isPySpace c = false) : (pyStrip b).isEmpty = false := by
  rw [pyStrip_eq_rdrop]
  by_contra hcon
  rw [Bool.not_eq_false, List.isEmpty_iff] at hcon
  have hall : ∀ x ∈ b.dropWhile isPySpace, isPySpace x = true :=
    List.rdropWhile_eq_nil_iff.mp hcon
  have htake : ∀ x ∈ b.takeWhile isPySpace, isPySpace x = true :=
    fun x hx => List.mem_takeWhile_imp hx
  have : ∀ x ∈ b, isPySpace x = true := by
    intro x hx
    rw [← List.takeWhile_append_dropWhile (p := isPySpace) (l := b)] at hx
    rcases List.mem_append.mp hx with h | h
    · exact htake x h
    · exact hall x h
  rw [this c hc] at hns
  cases hns

theorem pySplitLines_newline (t : List Char) :
    pySplitLines ('\n' :: t) = [] :: pySplitLines t := rfl

set_option maxHeartbeats 3200000 in
theorem pySplitLines_cons_of_not_break (c : Char) (rest : List Char)
    (h : isLineBreakChar c = false) :
    pySplitLines (c :: rest)
      = match pySplitLines rest with
        | [] => [[c]]
        | l :: ls => (c :: l) :: ls := by
  have hc : ¬(c = '\r') := by
    intro he
    rw [he] at h
    simp [isLineBreakChar] at h
  rw [pySplitLines.eq_def]
  split
  · simp_all
  · rename_i heq
    rw [List.cons.injEq] at heq
    exact absurd heq.1 hc
  · rename_i c2 rest2 heq
    rw [List.cons.injEq] at heq
    obtain ⟨rfl, rfl⟩ := heq
    rw [if_neg (by simp [h])]

theorem pySplitLines_cons_break (c : Char) (rest : List Char)
    (h : isLineBreakChar c = true) (hnot : ¬(c = '\r' ∧ ∃ r, rest = '\n' :: r)) :
    pySplitLines (c :: rest) = [] :: pySplitLines rest := by
  rw [pySplitLines.eq_def]
  split
  · simp_all
  · rename_i heq
    rw [List.cons.injEq] at heq
    exact absurd ⟨heq.1, _, heq.2⟩ hnot
  · rename_i c2 rest2 heq
    rw [List.cons.injEq] at heq
    obtain ⟨rfl, rfl⟩ := heq
    rw [if_pos (by simp [h])]

theorem pySplitLines_ne_nil (b : List Char) (hb : b ≠ []) : pySplitLines b ≠ [] := by
  rcases b with _ | ⟨c, rest⟩
  · exact absurd rfl hb
  · by_cases hbr : isLineBreakChar c = true
    · by_cases hp : c = '\r' ∧ ∃ r, rest = '\n' :: r
      · obtain ⟨rfl, r, rfl⟩ := hp
        simp [pySplitLines]
      · rw [pySplitLines_cons_break c rest hbr hp]
        simp
    · rw [pySplitLines_cons_of_not_break c rest (by simpa using hbr)]
      rcases pySplitLines rest with _ | ⟨l, ls⟩ <;> simp

theorem pySplitLines_append_newline (l t : List Char)
    (h : ∀ c ∈ l, isLineBreakChar c = false) :
    pySplitLines (l ++ '\n' :: t) = l :: pySplitLines t := by
  induction l with
  | nil => exact pySplitLines_newline t
  | cons c l2 ih =>
    have hc := h c (List.mem_cons_self _ _)
    rw [List.cons_append, pySplitLines_cons_of_not_break c _ hc,
      ih (fun x hx => h x (List.mem_cons_of_mem _ hx))]

theorem pySplitLines_no_break (b : List Char) :
    ∀ l ∈ pySplitLines b, ∀ c ∈ l, isLineBreakChar c = false := by
  induction b with
  | nil => simp [pySplitLines]
  | cons c rest ih =>
    by_cases hbr : isLineBreakChar c = true
    · by_cases hp : c = '\r' ∧ ∃ r, rest = '\n' :: r
      · obtain ⟨rfl, r, rfl⟩ := hp
        intro l hl
        rw [show pySplitLines ('\r' :: '\n' :: r) = [] :: pySplitLines r from rfl] at hl
        rcases List.mem_cons.mp hl with rfl | hl
        · intro c hc
          cases hc
        · intro d hd
          refine ih l ?_ d hd
          rw [pySplitLines_newline]
          exact List.mem_cons_of_mem _ hl
      · rw [pySplitLines_cons_break c rest hbr hp]
        intro l hl
        rcases List.mem_cons.mp hl with rfl | hl
        · intro d hd
          cases hd
        · exact ih l hl
    · rw [pySplitLines_cons_of_not_break c rest (by simpa using hbr)]
      rcases hsr : pySplitLines rest with _ | ⟨l0, ls⟩
      · intro l hl
        simp only [List.mem_singleton] at hl
        subst hl
        intro d hd
        rcases List.mem_singleton.mp hd with rfl
        simpa using hbr
      · intro l hl
        rcases List.mem_cons.mp hl with rfl | hl
        · intro d hd
          rcases List.mem_cons.mp hd with rfl | hd
          · simpa using hbr
          · exact ih l0 (hsr ▸ List.mem_cons_self _ _) d hd
        · exact ih l (hsr ▸ List.mem_cons_of_mem _ hl)

theorem joinNL_cons_cons (c : Char) (l : List Char) (ls : List (List Char)) :
    joinNL ((c :: l) :: ls) = c :: joinNL (l :: ls) := by
  cases ls <;> simp [joinNL]

theorem joinNL_pySplitLines (b : List Char)
    (hbr : ∀ c ∈ b, isLineBreakChar c = true → c = '\n')
    (hend : b.getLast? ≠ some '\n') :
    joinNL (pySplitLines b) = b := by
  induction b with
  | nil => rfl
  | cons c rest ih =>
    by_cases hc : c = '\n'
    · subst hc
      rw [pySplitLines_newline]
      rcases hrest : rest with _ | ⟨d, rest2⟩
      · rw [hrest] at hend
        simp at hend
      · rw [← hrest]
        have hrne : rest ≠ [] := by rw [hrest]; simp
        have hne := pySplitLines_ne_nil rest hrne
        rcases hxs : pySplitLines rest with _ | ⟨x, xs⟩
        · exact absurd hxs hne
        · rw [show joinNL ([] :: x :: xs) = '\n' :: joinNL (x :: xs) from by simp [joinNL]]
          rw [← hxs]
          rw [ih (fun d hd hb => hbr d (List.mem_cons_of_mem _ hd) hb) ?_]
          rw [hrest] at hend ⊢
          rw [List.getLast?_cons_cons] at hend
          exact hend
    · have hnb : isLineBreakChar c = false := by
        cases hq : isLineBreakChar c
        · rfl
        · exact absurd (hbr c (List.mem_cons_self _ _) hq) hc
      rw [pySplitLines_cons_of_not_break c rest hnb]
      rcases hxs : pySplitLines rest with _ | ⟨x, xs⟩
      · have hrnil : rest = [] := by
          by_contra hq
          exact pySplitLines_ne_nil rest hq hxs
        subst hrnil
        simp [joinNL]
      · rw [joinNL_cons_cons, ← hxs]
        rcases hrest : rest with _ | ⟨d, rest2⟩
        · rw [hrest] at hxs
          simp [pySplitLines] at hxs
        · rw [← hrest]
          rw [ih (fun e he hb => hbr e (List.mem_cons_of_mem _ he) hb) ?_]
          rw [hrest] at hend ⊢
          rw [List.getLast?_cons_cons] at hend
          exact hend

theorem pySplitLines_joinNL_append (bls : List (List Char)) (t : List Char)
    (hne : bls ≠ [])
    (hnb : ∀ l ∈ bls, ∀ c ∈ l, isLineBreakChar c = false) :
    pySplitLines (joinNL bls ++ '\n' :: t) = bls ++ pySplitLines t := by
  induction bls with
  | nil => exact absurd rfl hne
  | cons l ls ih =>
    rcases ls with _ | ⟨l2, ls2⟩
    · rw [show joinNL [l] = l from rfl,
        pySplitLines_append_newline l t (hnb l (List.mem_cons_self _ _))]
      rfl
    · rw [show joinNL (l :: l2 :: ls2) = l ++ '\n' :: joinNL (l2 :: ls2) from rfl]
      rw [show (l ++ '\n' :: joinNL (l2 :: ls2)) ++ '\n' :: t
          = l ++ '\n' :: (joinNL (l2 :: ls2) ++ '\n' :: t) from by simp]
      rw [pySplitLines_append_newline l _ (hnb l (List.mem_cons_self _ _)),
        ih (by simp) (fun x hx => hnb x (List.mem_cons_of_mem _ hx))]
      rfl

theorem joinTerm_append (xs ys : List (List Char)) :
    joinTerm (xs ++ ys) = joinTerm xs ++ joinTerm ys := by
  simp [joinTerm]

theorem joinTerm_length (ls : List (List Char)) : (joinTerm ls).length = sumLens ls := by
  induction ls with
  | nil => rfl
  | cons l ls ih => simp [joinTerm, sumLens] at ih ⊢; omega

theorem joinTerm_eq_joinNL (ls : List (List Char)) (hne : ls ≠ []) :
    joinTerm ls = joinNL ls ++ ['\n'] := by
  induction ls with
  | nil => exact absurd rfl hne
  | cons l ls ih =>
    rcases ls with _ | ⟨l2, ls2⟩
    · simp [joinTerm, joinNL]
    · rw [show joinTerm (l :: l2 :: ls2) = (l ++ ['\n']) ++ joinTerm (l2 :: ls2) from by
        simp [joinTerm]]
      rw [ih (by simp)]
      simp [joinNL]

theorem stripped_getLast_ne_newline (b : List Char) (h : pyStrip b = b) :
    b.getLast? ≠ some '\n' := by
  intro hq
  have hns := pyStrip_getLast_not_space b h '\n' hq
  simp [isPySpace] at hns

theorem headerLine_no_break (r : Release)
    (htag : ∀ c ∈ r.tag_name.data, isLineBreakChar c = false) :
    ∀ c ∈ headerLineOf r, isLineBreakChar c = false := by
  intro c hc
  simp only [headerLineOf, List.mem_cons] at hc
  rcases hc with rfl | rfl | rfl | hc
  · decide
  · decide
  · decide
  · exact htag c hc

theorem lines_of_sections (us : List Release) (h : ∀ r ∈ us, GoodRelease r) :
    pySplitLines (joinSections (us.map release_section)) = flattenBlocks us := by
  induction us with
  | nil => rfl
  | cons r rest ih =>
    obtain ⟨htag, hparse, hbrk, hnover, hstrip, hset⟩ := h r (List.mem_cons_self _ _)
    have hhead := headerLine_no_break r htag
    have hsec : release_section r = headerLineOf r ++ '\n' :: bodyOf r := by
      simp [release_section, headerLineOf]
    rcases hre : rest with _ | ⟨r2, rest2⟩
    · rw [show joinSections ([r].map release_section) = release_section r from rfl, hsec,
        pySplitLines_append_newline _ _ hhead]
      simp [flattenBlocks, blockLines, padLines]
    · rw [← hre]
      have hrest_ne : rest ≠ [] := by rw [hre]; simp
      have hjs : joinSections ((r :: rest).map release_section)
          = release_section r ++ '\n' :: '\n' :: joinSections (rest.map release_section) := by
        rw [hre]
        rfl
      rw [hjs, hsec]
      rw [show (headerLineOf r ++ '\n' :: bodyOf r) ++ '\n' :: '\n'
            :: joinSections (rest.map release_section)
          = headerLineOf r ++ '\n' :: (bodyOf r ++ '\n' :: '\n'
            :: joinSections (rest.map release_section)) from by simp]
      rw [pySplitLines_append_newline _ _ hhead]
      have hflat : flattenBlocks (r :: rest) = blockLines r rest.isEmpty ++ flattenBlocks rest :=
        rfl
      have hlastF : rest.isEmpty = false := by rw [hre]; rfl
      by_cases hb : bodyOf r = []
      · rw [hb]
        rw [show ([] : List Char) ++ '\n' :: '\n' :: joinSections (rest.map release_section)
            = '\n' :: '\n' :: joinSections (rest.map release_section) from rfl]
        rw [pySplitLines_newline, pySplitLines_newline, ih (fun x hx => h x (List.mem_cons_of_mem _ hx))]
        rw [hflat, hlastF]
        simp [blockLines, padLines, hb, pySplitLines]
      · have hbls : pySplitLines (bodyOf r) ≠ [] := pySplitLines_ne_nil _ hb
        have hrt : joinNL (pySplitLines (bodyOf r)) = bodyOf r :=
          joinNL_pySplitLines _ hbrk (stripped_getLast_ne_newline _ hstrip)
        have key : pySplitLines (bodyOf r ++ '\n' :: ('\n'
              :: joinSections (rest.map release_section)))
            = pySplitLines (bodyOf r) ++ [] :: pySplitLines (joinSections (rest.map release_section)) := by
          conv_lhs => rw [← hrt]
          rw [pySplitLines_joinNL_append _ _ hbls (pySplitLines_no_break (bodyOf r)),
            pySplitLines_newline]
        rw [key, ih (fun x hx => h x (List.mem_cons_of_mem _ hx))]
        rw [hflat, hlastF]
        simp [blockLines, padLines, hb]

theorem parse_version_from_line_nil : parse_version_from_line [] = none := rfl

theorem atxSignal_headerLine (r : Release) : atxSignal (headerLineOf r) = true := by
  have h : countLeading '#' (headerLineOf r) = 2 := by
    simp [countLeading, headerLineOf, List.takeWhile_cons]
  have hdrop : (headerLineOf r).drop 2 = ' ' :: r.tag_name.data := rfl
  simp [atxSignal, h, hdrop, isPySpace]

theorem is_header_position_of_atx (i : Nat) (lines : List (List Char))
    (h : atxSignal ((lines.get? i).getD []) = true) :
    _is_header_position i lines = true := by
  have h2 : atxSignal (lines[i]?.getD []) = true := by
    rw [← List.get?_eq_getElem?]
    exact h
  simp [_is_header_position, h2]

theorem mem_padLines_eq_nil (r : Release) (isLast : Bool) (l : List Char)
    (hl : l ∈ padLines r isLast) : l = [] := by
  cases isLast with
  | true => simp [padLines] at hl
  | false =>
    by_cases hc : bodyOf r = []
    · simp [padLines, hc] at hl
      rcases hl with rfl | rfl <;> rfl
    · simpa [padLines, hc] using hl

theorem mem_blockLines (r : Release) (isLast : Bool) (l : List Char)
    (hl : l ∈ blockLines r isLast) :
    l = headerLineOf r ∨ l ∈ pySplitLines (bodyOf r) ∨ l = [] := by
  simp only [blockLines] at hl
  rcases List.mem_cons.1 hl with h1 | hl2
  · exact Or.inl h1
  · rcases List.mem_append.1 hl2 with h2 | h3
    · exact Or.inr (Or.inl h2)
    · exact Or.inr (Or.inr (mem_padLines_eq_nil r _ l h3))

theorem flattenBlocks_parse_atx (us : List Release) (h : ∀ r ∈ us, GoodRelease r) :
    ∀ l ∈ flattenBlocks us, (parse_version_from_line l).isSome = true → atxSignal l = true := by
  induction us with
  | nil => intro l hl; simp [flattenBlocks] at hl
  | cons r rest ih =>
    intro l hl hp
    obtain ⟨htag, hparse, hbrk, hnover, hstrip, hset⟩ := h r (List.mem_cons_self _ _)
    rw [show flattenBlocks (r :: rest) = blockLines r rest.isEmpty ++ flattenBlocks rest
      from rfl] at hl
    rcases List.mem_append.1 hl with hA | hB
    · rcases mem_blockLines r _ l hA with rfl | hbody | rfl
      · exact atxSignal_headerLine r
      · rw [hnover l hbody] at hp; simp at hp
      · rw [parse_version_from_line_nil] at hp; simp at hp
    · exact ih (fun x hx => h x (List.mem_cons_of_mem _ hx)) l hB hp

set_option maxHeartbeats 3200000 in
theorem headerPosAux_eq_simple (full : List (List Char))
    (h : ∀ j, (parse_version_from_line ((full.get? j).getD [])).isSome = true →
      _is_header_position j full = true) :
    ∀ suf i pos, full.drop i = suf → headerPosAux full i pos suf = headerPosSimple i pos suf := by
  intro suf
  induction suf with
  | nil => intro i pos _; rfl
  | cons l ls ih =>
    intro i pos hd
    have hget : full.get? i = some l := by
      have h0 : (full.drop i).get? 0 = full.get? (i + 0) := List.get?_drop full i 0
      rw [hd] at h0
      simpa using h0.symm
    have hnext : full.drop (i + 1) = ls := by
      have h2 := congrArg (List.drop 1) hd
      rw [List.drop_drop] at h2
      simpa [Nat.add_comm] using h2
    cases hp : parse_version_from_line l with
    | none =>
      simp only [headerPosAux, headerPosSimple, hp]
      exact ih (i + 1) (pos + l.length + 1) hnext
    | some v =>
      have hh : _is_header_position i full = true := by
        apply h
        rw [hget]
        simp [hp]
      simp only [headerPosAux, headerPosSimple, hp, hh, if_true]
      rw [ih (i + 1) (pos + l.length + 1) hnext]

theorem sumLens_append (xs ys : List (List Char)) :
    sumLens (xs ++ ys) = sumLens xs + sumLens ys := by
  simp [sumLens]

set_option maxHeartbeats 3200000 in
theorem headerPosSimple_append_none :
    ∀ (ns : List (List Char)), (∀ l ∈ ns, parse_version_from_line l = none) →
    ∀ (t : List (List Char)) (i pos : Nat),
    headerPosSimple i pos (ns ++ t) = headerPosSimple (i + ns.length) (pos + sumLens ns) t := by
  intro ns
  induction ns with
  | nil => intro _ t i pos; simp [sumLens]
  | cons n ns ih =>
    intro h t i pos
    have hn := h n (List.mem_cons_self _ _)
    simp only [List.cons_append, headerPosSimple, hn]
    have e1 : i + 1 + ns.length = i + (n :: ns).length := by
      simp [List.length_cons]; omega
    have e2 : pos + n.length + 1 + sumLens ns = pos + sumLens (n :: ns) := by
      simp [sumLens]; omega
    rw [← e1, ← e2]
    exact ih (fun l hl => h l (List.mem_cons_of_mem _ hl)) t (i + 1) (pos + n.length + 1)

theorem headerPosSimple_blocks :
    ∀ (us : List Release), (∀ r ∈ us, GoodRelease r) → ∀ (i pos : Nat),
    headerPosSimple i pos (flattenBlocks us) = blocksHeaders i pos us := by
  intro us
  induction us with
  | nil => intro _ i pos; rfl
  | cons r rest ih =>
    intro h i pos
    obtain ⟨htag, hparse, hbrk, hnover, hstrip, hset⟩ := h r (List.mem_cons_self _ _)
    obtain ⟨v, hv⟩ := Option.isSome_iff_exists.1 hparse
    have hstep : flattenBlocks (r :: rest)
        = headerLineOf r :: ((pySplitLines (bodyOf r) ++ padLines r rest.isEmpty)
            ++ flattenBlocks rest) := by
      simp [flattenBlocks, blockLines]
    have hnone : ∀ l ∈ pySplitLines (bodyOf r) ++ padLines r rest.isEmpty,
        parse_version_from_line l = none := by
      intro l hl
      rcases List.mem_append.1 hl with hA | hB
      · exact hnover l hA
      · rw [mem_padLines_eq_nil r _ l hB]
        exact parse_version_from_line_nil
    rw [hstep]
    simp only [headerPosSimple, hv]
    rw [headerPosSimple_append_none _ hnone (flattenBlocks rest) (i + 1)
      (pos + (headerLineOf r).length + 1)]
    rw [ih (fun x hx => h x (List.mem_cons_of_mem _ hx))]
    simp only [blocksHeaders, hv, Option.getD_some]
    have e1 : i + 1 + (pySplitLines (bodyOf r) ++ padLines r rest.isEmpty).length
        = i + (blockLines r rest.isEmpty).length := by
      simp [blockLines]; omega
    have e2 : pos + (headerLineOf r).length + 1
          + sumLens (pySplitLines (bodyOf r) ++ padLines r rest.isEmpty)
        = pos + sumLens (blockLines r rest.isEmpty) := by
      simp [blockLines, sumLens]; omega
    rw [e1, e2]

theorem offsetAt_append (xs ys : List (List Char)) (k : Nat) :
    offsetAt (xs ++ ys) (xs.length + k) = sumLens xs + offsetAt ys k := by
  induction xs with
  | nil => simp [offsetAt, sumLens]
  | cons x xs ih =>
    simp only [List.cons_append, List.length_cons]
    rw [show xs.length + 1 + k = (xs.length + k) + 1 from by omega]
    simp only [offsetAt, List.take_succ_cons, List.map_cons, List.sum_cons] at ih ⊢
    rw [ih]
    simp [sumLens]
    omega

theorem offsetAt_one (y : List Char) (ys : List (List Char)) :
    offsetAt (y :: ys) 1 = y.length + 1 := by
  simp [offsetAt]

theorem sliceText_append (a b : List Char) (x y : Nat) :
    sliceText (a ++ b) (a.length + x) (a.length + y) = sliceText b x y := by
  induction a with
  | nil => simp [sliceText]
  | cons c a ih =>
    simp only [List.cons_append, List.length_cons, sliceText] at ih ⊢
    rw [show a.length + 1 + x = (a.length + x) + 1 from by omega,
        show a.length + 1 + y = (a.length + y) + 1 from by omega]
    simp only [List.take_succ_cons, List.drop_succ_cons]
    exact ih

theorem sliceText_take (b : List Char) (k : Nat) : sliceText b 0 k = b.take k := by
  simp [sliceText]

theorem sliceText_nil_of_ge (t : List Char) (a : Nat) :
    sliceText t a a = [] := by
  apply List.drop_eq_nil_of_le
  simp [List.length_take]

theorem take_len_append (c T : List Char) : (c ++ T).take c.length = c := by
  induction c with
  | nil => rfl
  | cons x c ih => simp [List.take_succ_cons, ih]

theorem get?_append_len (xs ys : List (List Char)) (k : Nat) :
    (xs ++ ys).get? (xs.length + k) = ys.get? k := by
  induction xs with
  | nil => simp
  | cons x xs ih =>
    rw [show (x :: xs).length + k = (xs.length + k) + 1 from by simp [List.length_cons]; omega]
    simpa using ih

theorem joinTerm_body (body : List Char) (hb : body ≠ [])
    (hbrk : ∀ c ∈ body, isLineBreakChar c = true → c = '\n')
    (hstrip : pyStrip body = body) :
    joinTerm (pySplitLines body) = body ++ ['\n'] := by
  rw [joinTerm_eq_joinNL _ (pySplitLines_ne_nil _ hb),
    joinNL_pySplitLines _ hbrk (stripped_getLast_ne_newline _ hstrip)]

theorem buildChunks_cons_cons (text : List Char) (lines : List (List Char))
    (li pos li2 pos2 : Nat) (v x v2 : List Char) (tl2 : List (Nat × List Char × Nat))
    (hget : lines.get? (li + 1) = some x)
    (hsx : isSetextLine (pyStrip x) = false)
    (hlt : li + 1 < lines.length) :
    buildChunks text lines ((li, v, pos) :: (li2, v2, pos2) :: tl2)
      = ⟨⟨v⟩, ⟨pyStrip (sliceText text (offsetAt lines (li + 1)) pos2)⟩⟩
        :: buildChunks text lines ((li2, v2, pos2) :: tl2) := by
  simp only [buildChunks, hget, Option.getD_some, hsx, Bool.and_false, Bool.false_eq_true,
    if_false]
  rw [if_pos hlt]

theorem buildChunks_cons_last (text : List Char) (lines : List (List Char))
    (li pos : Nat) (v x : List Char)
    (hget : lines.get? (li + 1) = some x)
    (hsx : isSetextLine (pyStrip x) = false)
    (hlt : li + 1 < lines.length) :
    buildChunks text lines [(li, v, pos)]
      = [⟨⟨v⟩, ⟨pyStrip (sliceText text (offsetAt lines (li + 1)) text.length)⟩⟩] := by
  simp only [buildChunks, hget, Option.getD_some, hsx, Bool.and_false, Bool.false_eq_true,
    if_false]
  rw [if_pos hlt]

theorem buildChunks_last_empty (text : List Char) (lines : List (List Char))
    (li pos : Nat) (v : List Char)
    (hge : lines.length ≤ li + 1) :
    buildChunks text lines [(li, v, pos)] = [⟨⟨v⟩, ⟨[]⟩⟩] := by
  have hc : decide (li + 1 < lines.length) = false := decide_eq_false (by omega)
  simp only [buildChunks, hc, Bool.false_and, Bool.false_eq_true, if_false]
  rw [if_neg (by omega), sliceText_nil_of_ge]
  rfl

set_option maxHeartbeats 1600000 in
theorem buildChunks_blocks :
    ∀ (us : List Release), (∀ r ∈ us, GoodRelease r) → ∀ (preLines : List (List Char)),
    buildChunks (joinTerm preLines ++ joinSections (us.map release_section))
        (preLines ++ flattenBlocks us)
        (blocksHeaders preLines.length (sumLens preLines) us)
      = us.map release_chunk := by
  intro us
  induction us with
  | nil => intro _ preLines; rfl
  | cons r rest ih =>
    intro h preLines
    obtain ⟨htag, hparse, hbrk, hnover, hstrip, hset⟩ := h r (List.mem_cons_self _ _)
    obtain ⟨v, hv⟩ := Option.isSome_iff_exists.1 hparse
    have hrc : release_chunk r = ⟨⟨v⟩, ⟨bodyOf r⟩⟩ := by
      simp [release_chunk, hv]
    rcases rest with _ | ⟨r2, rest2⟩
    · -- last release
      simp only [List.map_cons, List.map_nil]
      have hbh : blocksHeaders preLines.length (sumLens preLines) [r]
          = [(preLines.length, v, sumLens preLines)] := by
        simp only [blocksHeaders, hv, Option.getD_some]
      by_cases hb : bodyOf r = []
      · have hL : preLines ++ flattenBlocks [r] = preLines ++ [headerLineOf r] := by
          simp [flattenBlocks, blockLines, padLines, hb, pySplitLines]
        rw [hL, hbh, buildChunks_last_empty _ _ _ _ _
          (by simp only [List.length_append, List.length_cons, List.length_nil]; omega)]
        rw [hrc, hb]
      · obtain ⟨bl0, bls', hbq⟩ : ∃ bl0 bls', pySplitLines (bodyOf r) = bl0 :: bls' := by
          rcases hq : pySplitLines (bodyOf r) with _ | ⟨a, as⟩
          · exact absurd hq (pySplitLines_ne_nil _ hb)
          · exact ⟨a, as, rfl⟩
        have hsx : isSetextLine (pyStrip bl0) = false := by
          apply hset
          simp [hbq]
        have hL : preLines ++ flattenBlocks [r]
            = preLines ++ (headerLineOf r :: bl0 :: bls') := by
          simp [flattenBlocks, blockLines, padLines, hbq]
        have hTeq : joinTerm preLines ++ joinSections [release_section r]
            = (joinTerm preLines ++ (headerLineOf r ++ ['\n'])) ++ bodyOf r := by
          simp [joinSections, release_section, headerLineOf]
        have hget1 : (preLines ++ (headerLineOf r :: bl0 :: bls')).get?
            (preLines.length + 1) = some bl0 := by
          rw [get?_append_len preLines _ 1]
          rfl
        have hlenL : preLines.length + 1
            < (preLines ++ (headerLineOf r :: bl0 :: bls')).length := by
          simp only [List.length_append, List.length_cons]
          omega
        have hoff2 : offsetAt (preLines ++ (headerLineOf r :: bl0 :: bls'))
            (preLines.length + 1) = sumLens preLines + ((headerLineOf r).length + 1) := by
          rw [offsetAt_append preLines _ 1, offsetAt_one]
        have hstart2 : sumLens preLines + ((headerLineOf r).length + 1)
            = (joinTerm preLines ++ (headerLineOf r ++ ['\n'])).length + 0 := by
          simp only [List.length_append, List.length_cons, List.length_nil, joinTerm_length]
          omega
        have hend2 : ((joinTerm preLines ++ (headerLineOf r ++ ['\n'])) ++ bodyOf r).length
            = (joinTerm preLines ++ (headerLineOf r ++ ['\n'])).length + (bodyOf r).length := by
          simp only [List.length_append, List.length_cons, List.length_nil]
        have hslice2 : sliceText ((joinTerm preLines ++ (headerLineOf r ++ ['\n'])) ++ bodyOf r)
            (sumLens preLines + ((headerLineOf r).length + 1))
            ((joinTerm preLines ++ (headerLineOf r ++ ['\n'])) ++ bodyOf r).length
            = bodyOf r := by
          rw [hstart2, hend2, sliceText_append, sliceText_take, List.take_length]
        rw [hTeq, hL, hbh, buildChunks_cons_last _ _ _ _ _ _ hget1 hsx hlenL]
        rw [hoff2, hslice2, hstrip, hrc]
    · -- r followed by r2 :: rest2
      have hjB : joinTerm (blockLines r false)
          = (headerLineOf r ++ ['\n']) ++ (bodyOf r ++ ['\n', '\n']) := by
        by_cases hb : bodyOf r = []
        · simp [blockLines, padLines, hb, pySplitLines, joinTerm]
        · rw [show blockLines r false
              = headerLineOf r :: (pySplitLines (bodyOf r) ++ padLines r false) from rfl]
          rw [show joinTerm (headerLineOf r :: (pySplitLines (bodyOf r) ++ padLines r false))
              = (headerLineOf r ++ ['\n'])
                ++ joinTerm (pySplitLines (bodyOf r) ++ padLines r false) from by
            simp [joinTerm]]
          rw [joinTerm_append, joinTerm_body _ hb hbrk hstrip]
          simp [padLines, hb, joinTerm]
      have hsum : sumLens (blockLines r false)
          = ((headerLineOf r).length + 1) + ((bodyOf r).length + 2) := by
        rw [← joinTerm_length, hjB]
        simp only [List.length_append, List.length_cons, List.length_nil]
      have hns : ∃ x ns', pySplitLines (bodyOf r) ++ padLines r false = x :: ns'
          ∧ isSetextLine (pyStrip x) = false := by
        by_cases hb : bodyOf r = []
        · exact ⟨[], [[]], by simp [hb, pySplitLines, padLines], by decide⟩
        · rcases hq : pySplitLines (bodyOf r) with _ | ⟨a, as⟩
          · exact absurd hq (pySplitLines_ne_nil _ hb)
          · exact ⟨a, as ++ padLines r false, by simp [hq], hset a (by simp [hq])⟩
      obtain ⟨x, ns', hns_eq, hsx⟩ := hns
      obtain ⟨w, hw⟩ : ∃ w, (parse_version_from_line (headerLineOf r2)).getD [] = w :=
        ⟨_, rfl⟩
      have htext' : joinTerm preLines ++ joinSections ((r :: r2 :: rest2).map release_section)
          = (joinTerm preLines ++ (headerLineOf r ++ ['\n']))
            ++ ((bodyOf r ++ ['\n', '\n'])
              ++ joinSections ((r2 :: rest2).map release_section)) := by
        rw [show (r :: r2 :: rest2).map release_section
            = release_section r :: (r2 :: rest2).map release_section from rfl]
        rw [show joinSections (release_section r :: (r2 :: rest2).map release_section)
            = release_section r ++ '\n' :: '\n'
              :: joinSections ((r2 :: rest2).map release_section) from rfl]
        simp [release_section, headerLineOf]
      have hlines2 : preLines ++ flattenBlocks (r :: r2 :: rest2)
          = preLines ++ (headerLineOf r :: x :: (ns' ++ flattenBlocks (r2 :: rest2))) := by
        rw [show flattenBlocks (r :: r2 :: rest2)
            = blockLines r (r2 :: rest2).isEmpty ++ flattenBlocks (r2 :: rest2) from rfl]
        rw [show (r2 :: rest2).isEmpty = false from rfl]
        rw [show blockLines r false
            = headerLineOf r :: (pySplitLines (bodyOf r) ++ padLines r false) from rfl, hns_eq]
        simp
      have hbh : blocksHeaders preLines.length (sumLens preLines) (r :: r2 :: rest2)
          = (preLines.length, v, sumLens preLines)
            :: blocksHeaders (preLines.length + (blockLines r false).length)
                (sumLens preLines + sumLens (blockLines r false)) (r2 :: rest2) := by
        simp only [blocksHeaders, hv, Option.getD_some, List.isEmpty_cons]
      have htl : blocksHeaders (preLines.length + (blockLines r false).length)
            (sumLens preLines + sumLens (blockLines r false)) (r2 :: rest2)
          = (preLines.length + (blockLines r false).length, w,
              sumLens preLines + sumLens (blockLines r false))
            :: blocksHeaders
                (preLines.length + (blockLines r false).length
                  + (blockLines r2 rest2.isEmpty).length)
                (sumLens preLines + sumLens (blockLines r false)
                  + sumLens (blockLines r2 rest2.isEmpty)) rest2 := by
        rw [← hw]
        simp only [blocksHeaders]
      have hget1 : (preLines ++ (headerLineOf r :: x
            :: (ns' ++ flattenBlocks (r2 :: rest2)))).get? (preLines.length + 1) = some x := by
        rw [get?_append_len preLines _ 1]
        rfl
      have hlenL : preLines.length + 1 < (preLines ++ (headerLineOf r :: x
          :: (ns' ++ flattenBlocks (r2 :: rest2)))).length := by
        simp only [List.length_append, List.length_cons]
        omega
      have hoff : offsetAt (preLines ++ (headerLineOf r :: x
            :: (ns' ++ flattenBlocks (r2 :: rest2)))) (preLines.length + 1)
          = sumLens preLines + ((headerLineOf r).length + 1) := by
        rw [offsetAt_append preLines _ 1, offsetAt_one]
      have hstart : sumLens preLines + ((headerLineOf r).length + 1)
          = (joinTerm preLines ++ (headerLineOf r ++ ['\n'])).length + 0 := by
        simp only [List.length_append, List.length_cons, List.length_nil, joinTerm_length]
        omega
      have hend : sumLens preLines + sumLens (blockLines r false)
          = (joinTerm preLines ++ (headerLineOf r ++ ['\n'])).length
            + (bodyOf r ++ ['\n', '\n']).length := by
        rw [hsum]
        simp only [List.length_append, List.length_cons, List.length_nil, joinTerm_length]
        omega
      have hslice : sliceText ((joinTerm preLines ++ (headerLineOf r ++ ['\n']))
            ++ ((bodyOf r ++ ['\n', '\n'])
              ++ joinSections ((r2 :: rest2).map release_section)))
          (sumLens preLines + ((headerLineOf r).length + 1))
          (sumLens preLines + sumLens (blockLines r false))
          = bodyOf r ++ ['\n', '\n'] := by
        rw [hstart, hend, sliceText_append, sliceText_take, take_len_append]
      have hpyc : pyStrip (bodyOf r ++ ['\n', '\n']) = bodyOf r := by
        rw [pyStrip_append_ws _ _ (by decide), hstrip]
      have hTrec : (joinTerm preLines ++ (headerLineOf r ++ ['\n']))
            ++ ((bodyOf r ++ ['\n', '\n'])
              ++ joinSections ((r2 :: rest2).map release_section))
          = joinTerm (preLines ++ blockLines r false)
            ++ joinSections ((r2 :: rest2).map release_section) := by
        rw [joinTerm_append, hjB]
        simp
      have hLrec : preLines ++ (headerLineOf r :: x :: (ns' ++ flattenBlocks (r2 :: rest2)))
          = (preLines ++ blockLines r false) ++ flattenBlocks (r2 :: rest2) := by
        rw [show blockLines r false
            = headerLineOf r :: (pySplitLines (bodyOf r) ++ padLines r false) from rfl, hns_eq]
        simp
      rw [htext', hlines2, hbh, htl]
      rw [buildChunks_cons_cons _ _ _ _ _ _ _ _ _ _ hget1 hsx hlenL]
      rw [hoff, hslice, hpyc]
      rw [show List.map release_chunk (r :: r2 :: rest2)
          = release_chunk r :: List.map release_chunk (r2 :: rest2) from rfl, hrc]
      refine congrArg (List.cons _) ?_
      rw [← htl]
      rw [show preLines.length + (blockLines r false).length
          = (preLines ++ blockLines r false).length from by simp]
      rw [show sumLens preLines + sumLens (blockLines r false)
          = sumLens (preLines ++ blockLines r false) from (sumLens_append _ _).symm]
      rw [hTrec, hLrec]
      exact ih (fun z hz => h z (List.mem_cons_of_mem _ hz)) (preLines ++ blockLines r false)

/-- **C3** (corrected): chunking the synthetic Releases-API changelog text —
one `## {tag_name}` header plus body per non-draft, non-prerelease release,
sections joined by `\n\n` — recovers exactly one chunk per retained release,
in API order, with each chunk's content equal to that release's body verbatim
and its version parsed from the synthetic header, provided every retained
release is well-behaved (`GoodRelease`): the tag holds no line-break
character, `## {tag}` is version-parseable, the body's only line-break
character is `\n`, no body line is itself version-parseable, the body carries
no leading or trailing whitespace, and the body does not open with a setext
underline. Without these side conditions the claim is false: a body containing
its own `## x.y.z` header line splits into extra chunks. -/
theorem releases_roundtrip_chunking (rs : List Release)
    (h : ∀ r ∈ usable_releases rs, GoodRelease r) :
    chunk_changelog_by_version (releases_changelog_text rs)
      = (usable_releases rs).map release_chunk := by
  rcases hu : usable_releases rs with _ | ⟨r, us'⟩
  · have htxt : releases_changelog_text rs = [] := by
      simp [releases_changelog_text, hu, joinSections]
    rw [htxt]
    rfl
  · have hall : ∀ x ∈ r :: us', GoodRelease x := by
      rw [← hu]
      exact h
    have htxt : releases_changelog_text rs
        = joinSections ((r :: us').map release_section) := by
      simp only [releases_changelog_text, hu]
    rw [htxt]
    have hmem : '#' ∈ joinSections ((r :: us').map release_section) := by
      rcases us' with _ | ⟨b, bs⟩
      · show '#' ∈ joinSections [release_section r]
        rw [show joinSections [release_section r] = release_section r from rfl]
        simp [release_section]
      · rw [show joinSections ((r :: b :: bs).map release_section)
            = release_section r ++ '\n' :: '\n'
              :: joinSections ((b :: bs).map release_section) from rfl]
        simp [release_section]
    have hguard : (pyStrip (joinSections ((r :: us').map release_section))).isEmpty = false :=
      pyStrip_ne_nil_of_mem _ '#' hmem (by decide)
    have hLF : pySplitLines (joinSections ((r :: us').map release_section))
        = flattenBlocks (r :: us') := lines_of_sections _ hall
    simp only [chunk_changelog_by_version, hguard, Bool.false_eq_true, if_false]
    rw [hLF]
    have hcond : ∀ j, (parse_version_from_line
          (((flattenBlocks (r :: us')).get? j).getD [])).isSome = true →
        _is_header_position j (flattenBlocks (r :: us')) = true := by
      intro j hj
      cases hg : (flattenBlocks (r :: us')).get? j with
      | none =>
        rw [hg] at hj
        simp [Option.getD_none, parse_version_from_line_nil] at hj
      | some l =>
        rw [hg] at hj
        apply is_header_position_of_atx
        rw [hg]
        simpa using flattenBlocks_parse_atx (r :: us') hall l (List.get?_mem hg)
          (by simpa using hj)
    have hHP : headerPosAux (flattenBlocks (r :: us')) 0 0 (flattenBlocks (r :: us'))
        = blocksHeaders 0 0 (r :: us') := by
      rw [headerPosAux_eq_simple _ hcond (flattenBlocks (r :: us')) 0 0 (List.drop_zero _),
        headerPosSimple_blocks _ hall]
    rw [hHP]
    have hhe : (blocksHeaders 0 0 (r :: us')).isEmpty = false := by
      simp [blocksHeaders]
    simp only [hhe, Bool.false_eq_true, if_false]
    exact buildChunks_blocks (r :: us') hall []

theorem releases_roundtrip_chunking_witness :
    (∀ r ∈ usable_releases
        [⟨"v2.0.0", some "- Breaking: Renamed module\n- Fixed bug", false, false⟩,
         ⟨"v1.5.0", some "draft notes", true, false⟩,
         ⟨"v1.0.0", some "- Initial release", false, false⟩], GoodRelease r) ∧
    chunk_changelog_by_version (releases_changelog_text
        [⟨"v2.0.0", some "- Breaking: Renamed module\n- Fixed bug", false, false⟩,
         ⟨"v1.5.0", some "draft notes", true, false⟩,
         ⟨"v1.0.0", some "- Initial release", false, false⟩])
      = [⟨"2.0.0", "- Breaking: Renamed module\n- Fixed bug"⟩,
         ⟨"1.0.0", "- Initial release"⟩] := by
  have hgood : ∀ r ∈ usable_releases
      [⟨"v2.0.0", some "- Breaking: Renamed module\n- Fixed bug", false, false⟩,
       ⟨"v1.5.0", some "draft notes", true, false⟩,
       ⟨"v1.0.0", some "- Initial release", false, false⟩], GoodRelease r := by decide
  refine ⟨hgood, ?_⟩
  rw [releases_roundtrip_chunking _ hgood]
  rfl

/-- A single retained release whose body contains its own `## 0.5.0` header
line: the chunker recovers two chunks, not one, refuting the unconditional
per-release round-trip. -/
theorem releases_roundtrip_counterexample :
    (chunk_changelog_by_version (releases_changelog_text
        [⟨"1.0.0", some "## 0.5.0\nold", false, false⟩])).length = 2 := by
  rfl
